import Mathlib

/-!
Verification of the gronx cron-expression engine (`gronx.go`).

The Go source is shallowly embedded: calendar instants (`time.Time` values as
used by the code, i.e. year/month/day/hour/minute/second/nanosecond in a fixed
location) become the structure `DT`; `time.Date(...).Add(-time.Nanosecond)`
becomes `subNano` applied to a field-truncated `DT`; the public operations
`Segments`, `SegmentsDue`, `IsDue`, `GetPrev` and the helper `getPrevTime`
are translated line by line.  The segment matcher (`Checker.CheckDue`) is not
part of the given sources, so it is modelled from the specification; the
operations that take a checker are parameterized over an arbitrary checker
function wherever the claim allows it.
-/

set_option maxHeartbeats 1000000

namespace Gronx

/-- Leap-year predicate of the proleptic Gregorian calendar, as used by Go's
`time` package (year divisible by 4 and not by 100, or divisible by 400). -/
def isLeap (y : Int) : Bool := (y % 4 == 0 && !(y % 100 == 0)) || (y % 400 == 0)

/-- Days in month `m` (1-12) for a given leapness; `0` for out-of-range months. -/
def dimN (leap : Bool) (m : Nat) : Nat :=
  match m with
  | 1 => 31
  | 2 => if leap then 29 else 28
  | 3 => 31
  | 4 => 30
  | 5 => 31
  | 6 => 30
  | 7 => 31
  | 8 => 31
  | 9 => 30
  | 10 => 31
  | 11 => 30
  | 12 => 31
  | _ => 0

/-- Days strictly before month `m` within a year (so `dbmN l 1 = 0`); month 13
gives the length of the whole year. -/
def dbmN (leap : Bool) (m : Nat) : Nat :=
  match m with
  | 1 => 0
  | 2 => 31
  | 3 => if leap then 60 else 59
  | 4 => if leap then 91 else 90
  | 5 => if leap then 121 else 120
  | 6 => if leap then 152 else 151
  | 7 => if leap then 182 else 181
  | 8 => if leap then 213 else 212
  | 9 => if leap then 244 else 243
  | 10 => if leap then 274 else 273
  | 11 => if leap then 305 else 304
  | 12 => if leap then 335 else 334
  | 13 => if leap then 366 else 365
  | _ => 0

/-- Number of days in a year. -/
def diyN (leap : Bool) : Nat := if leap then 366 else 365

/-- Days in month `m` of year `y`. -/
def daysInMonth (y : Int) (m : Nat) : Nat := dimN (isLeap y) m

/-- Days (possibly negative) from the calendar origin to the start of year `y`. -/
def dby (y : Int) : Int := 365 * y + (y + 3) / 4 - (y + 99) / 100 + (y + 399) / 400

/-- Calendar instant: the fields of a Go `time.Time` in its location, at the
granularity the engine manipulates. -/
structure DT where
  year : Int
  month : Nat
  day : Nat
  hour : Nat
  minute : Nat
  second : Nat
  nano : Nat
deriving DecidableEq, Repr

/-- Well-formedness of a calendar instant. -/
def Valid (t : DT) : Prop :=
  1 ≤ t.month ∧ t.month ≤ 12 ∧ 1 ≤ t.day ∧ t.day ≤ daysInMonth t.year t.month ∧
    t.hour ≤ 23 ∧ t.minute ≤ 59 ∧ t.second ≤ 59 ∧ t.nano ≤ 999999999

instance (t : DT) : Decidable (Valid t) := by unfold Valid; infer_instance

/-- Zero-based day index within the year. -/
def dayOfYear (t : DT) : Nat := dbmN (isLeap t.year) t.month + (t.day - 1)

/-- Day number of an instant on the absolute (rata-die style) day line. -/
def rataDie (t : DT) : Int := dby t.year + dayOfYear t

/-- Minute number of an instant on the absolute minute line. -/
def minuteIdx (t : DT) : Int := rataDie t * 1440 + t.hour * 60 + t.minute

/-- Nanosecond timestamp of an instant; the linear order on instants. -/
def toNano (t : DT) : Int := (minuteIdx t * 60 + t.second) * 1000000000 + t.nano

/-- Instant with zero seconds and nanoseconds (minute granularity). -/
def minuteAligned (t : DT) : Prop := t.second = 0 ∧ t.nano = 0

instance (t : DT) : Decidable (minuteAligned t) := by unfold minuteAligned; infer_instance

theorem dby_succ (y : Int) : dby (y + 1) = dby y + (diyN (isLeap y) : Int) := by
  by_cases h4 : y % 4 = 0 <;> by_cases h100 : y % 100 = 0 <;> by_cases h400 : y % 400 = 0 <;>
    simp [dby, isLeap, diyN, h4, h100, h400] <;> omega

theorem diyN_bounds (l : Bool) : 365 ≤ diyN l ∧ diyN l ≤ 366 := by cases l <;> simp [diyN]

theorem dby_add_le (n : Nat) (y : Int) : dby y + diyN (isLeap y) + 365 * n ≤ dby (y + 1 + n) := by
  induction n with
  | zero => simp [dby_succ y]
  | succ k ih =>
    have h1 : dby (y + 1 + k) + (diyN (isLeap (y + 1 + k)) : Int) = dby (y + 1 + k + 1) :=
      (dby_succ (y + 1 + k)).symm
    have h2 := (diyN_bounds (isLeap (y + 1 + k))).1
    have h3 : y + 1 + (k + 1 : Nat) = y + 1 + k + 1 := by push_cast; ring
    rw [h3]
    push_cast at h1 ⊢
    omega

theorem dby_lt_mono {a b : Int} (h : a < b) : dby a + diyN (isLeap a) ≤ dby b := by
  have hn : b = a + 1 + ((b - a - 1).toNat : Int) := by omega
  have := dby_add_le (b - a - 1).toNat a
  rw [← hn] at this
  omega

theorem year_unique {a b r : Int} (ha1 : dby a ≤ r) (ha2 : r < dby a + diyN (isLeap a))
    (hb1 : dby b ≤ r) (hb2 : r < dby b + diyN (isLeap b)) : a = b := by
  rcases lt_trichotomy a b with h | h | h
  · have := dby_lt_mono h; omega
  · exact h
  · have := dby_lt_mono h; omega

theorem dimN_pos (l : Bool) : ∀ m : Nat, 1 ≤ m → m ≤ 12 → 1 ≤ dimN l m := by
  cases l <;> decide

theorem dimN_le (l : Bool) : ∀ m : Nat, m ≤ 12 → dimN l m ≤ 31 := by cases l <;> decide

theorem dbmN_succ (l : Bool) : ∀ m : Nat, 1 ≤ m → m ≤ 12 →
    dbmN l (m + 1) = dbmN l m + dimN l m := by
  cases l <;> decide

theorem dbmN_add_dim_le (l : Bool) : ∀ m : Nat, 1 ≤ m → m ≤ 12 →
    dbmN l m + dimN l m ≤ diyN l := by
  cases l <;> decide

theorem dbmN_lt_mono (l : Bool) : ∀ m : Nat, m ≤ 12 → ∀ m' : Nat, m' ≤ 12 → 1 ≤ m →
    1 ≤ m' → m < m' → dbmN l m + dimN l m ≤ dbmN l m' := by
  cases l <;> decide

theorem month_unique (l : Bool) (m m' r : Nat) (h1 : 1 ≤ m) (h2 : m ≤ 12) (h1' : 1 ≤ m')
    (h2' : m' ≤ 12) (ha1 : dbmN l m ≤ r) (ha2 : r < dbmN l m + dimN l m)
    (hb1 : dbmN l m' ≤ r) (hb2 : r < dbmN l m' + dimN l m') : m = m' := by
  rcases lt_trichotomy m m' with h | h | h
  · have := dbmN_lt_mono l m h2 m' h2' h1 h1' h; omega
  · exact h
  · have := dbmN_lt_mono l m' h2' m h2 h1' h1 h; omega

theorem dayOfYear_lt (t : DT) (h : Valid t) : dayOfYear t < diyN (isLeap t.year) := by
  obtain ⟨h1, h2, h3, h4, -⟩ := h
  have := dbmN_add_dim_le (isLeap t.year) t.month h1 h2
  unfold dayOfYear
  unfold daysInMonth at h4
  omega

theorem rataDie_bounds (t : DT) (h : Valid t) :
    dby t.year ≤ rataDie t ∧ rataDie t < dby t.year + diyN (isLeap t.year) := by
  have := dayOfYear_lt t h
  unfold rataDie
  omega

theorem rataDie_inj {u v : DT} (hu : Valid u) (hv : Valid v) (h : rataDie u = rataDie v) :
    u.year = v.year ∧ u.month = v.month ∧ u.day = v.day := by
  obtain ⟨hbu1, hbu2⟩ := rataDie_bounds u hu
  obtain ⟨hbv1, hbv2⟩ := rataDie_bounds v hv
  have hy : u.year = v.year := year_unique hbu1 hbu2 (h ▸ hbv1) (h ▸ hbv2)
  obtain ⟨mu1, mu2, du1, du2, -⟩ := hu
  obtain ⟨mv1, mv2, dv1, dv2, -⟩ := hv
  have hdoy : dayOfYear u = dayOfYear v := by
    unfold rataDie at h; rw [hy] at h; omega
  unfold dayOfYear at hdoy
  rw [hy] at hdoy
  unfold daysInMonth at du2 dv2
  have hm : u.month = v.month := by
    apply month_unique (isLeap v.year) u.month v.month (dbmN (isLeap v.year) u.month + (u.day - 1))
      mu1 mu2 mv1 mv2
    · omega
    · rw [hy] at du2; omega
    · omega
    · omega
  refine ⟨hy, hm, ?_⟩
  rw [hm] at hdoy
  omega

theorem toNano_eq (t : DT) : toNano t = rataDie t * 86400000000000 +
    t.hour * 3600000000000 + t.minute * 60000000000 + t.second * 1000000000 + t.nano := by
  unfold toNano minuteIdx
  ring

/-- Embedding of `time.Time.Add(-time.Nanosecond)`: step one nanosecond back on
the calendar, borrowing across seconds, minutes, hours, days, months, years. -/
def subNano (t : DT) : DT :=
  if 0 < t.nano then { t with nano := t.nano - 1 }
  else if 0 < t.second then { t with second := t.second - 1, nano := 999999999 }
  else if 0 < t.minute then { t with minute := t.minute - 1, second := 59, nano := 999999999 }
  else if 0 < t.hour then
    { t with hour := t.hour - 1, minute := 59, second := 59, nano := 999999999 }
  else if 1 < t.day then
    { t with day := t.day - 1, hour := 23, minute := 59, second := 59, nano := 999999999 }
  else if 1 < t.month then
    { year := t.year, month := t.month - 1, day := daysInMonth t.year (t.month - 1),
      hour := 23, minute := 59, second := 59, nano := 999999999 }
  else
    { year := t.year - 1, month := 12, day := 31, hour := 23, minute := 59, second := 59,
      nano := 999999999 }

theorem dbmN_12_add (l : Bool) : dbmN l 12 + 31 = diyN l := by cases l <;> decide

theorem dim12 (y : Int) : daysInMonth y 12 = 31 := by
  unfold daysInMonth; cases isLeap y <;> rfl

theorem subNano_valid {t : DT} (h : Valid t) : Valid (subNano t) := by
  obtain ⟨h1, h2, h3, h4, h5, h6, h7, h8⟩ := h
  unfold subNano
  split_ifs with c1 c2 c3 c4 c5 c6 <;>
    refine ⟨?_, ?_, ?_, ?_, ?_, ?_, ?_, ?_⟩ <;> (try dsimp only) <;>
    first
      | omega
      | exact dimN_pos (isLeap t.year) (t.month - 1) (by omega) (by omega)
      | rw [dim12]

theorem subNano_toNano {t : DT} (h : Valid t) : toNano (subNano t) = toNano t - 1 := by
  obtain ⟨h1, h2, h3, h4, h5, h6, h7, h8⟩ := h
  unfold subNano
  split_ifs with c1 c2 c3 c4 c5 c6 <;>
    simp only [toNano_eq, rataDie, dayOfYear]
  · omega
  · omega
  · omega
  · omega
  · omega
  · have hs := dbmN_succ (isLeap t.year) (t.month - 1) (by omega) (by omega)
    have he : t.month - 1 + 1 = t.month := by omega
    rw [he] at hs
    simp only [daysInMonth]
    have hd1 : 1 ≤ dimN (isLeap t.year) (t.month - 1) := dimN_pos _ _ (by omega) (by omega)
    push_cast
    omega
  · have hs := dby_succ (t.year - 1)
    have he : t.year - 1 + 1 = t.year := by ring
    rw [he] at hs
    have hm : t.month = 1 := by omega
    rw [hm]
    cases hl : isLeap (t.year - 1) <;> rw [hl] at hs <;> simp [diyN, dbmN] at hs ⊢ <;> omega

theorem subNano_second_nano {t : DT} (h2 : t.second = 0) (h3 : t.nano = 0) :
    (subNano t).second = 59 ∧ (subNano t).nano = 999999999 := by
  unfold subNano
  split_ifs <;> simp_all

/-- Start of the unit of `ref` at segment position `pos`: the instant produced
by the `time.Date(...)` call of the corresponding `getPrevTime` branch. -/
def unitStart (ref : DT) (pos : Nat) : DT :=
  match pos with
  | 5 => ⟨ref.year, 1, 1, 0, 0, 0, 0⟩
  | 3 => ⟨ref.year, ref.month, 1, 0, 0, 0, 0⟩
  | 2 => ⟨ref.year, ref.month, ref.day, 0, 0, 0, 0⟩
  | 4 => ⟨ref.year, ref.month, ref.day, 0, 0, 0, 0⟩
  | 1 => ⟨ref.year, ref.month, ref.day, ref.hour, 0, 0, 0⟩
  | 0 => ⟨ref.year, ref.month, ref.day, ref.hour, ref.minute, 0, 0⟩
  | _ => ref

/-- Embedding of `getPrevTime`: regress `ref` to one nanosecond before the
start of its unit at `pos`, reporting whether the calendar year changed.  The
`default:` branch of the Go `switch` is a `panic`; it is modelled as `none`. -/
def getPrevTime (ref : DT) (pos : Nat) : Option (DT × Bool) :=
  match pos with
  | 5 => some (subNano (unitStart ref 5), (subNano (unitStart ref 5)).year != ref.year)
  | 3 => some (subNano (unitStart ref 3), (subNano (unitStart ref 3)).year != ref.year)
  | 2 => some (subNano (unitStart ref 2), (subNano (unitStart ref 2)).year != ref.year)
  | 4 => some (subNano (unitStart ref 4), (subNano (unitStart ref 4)).year != ref.year)
  | 1 => some (subNano (unitStart ref 1), (subNano (unitStart ref 1)).year != ref.year)
  | 0 => some (subNano (unitStart ref 0), (subNano (unitStart ref 0)).year != ref.year)
  | _ => none

/-- Embedding of the final `time.Date(y, mo, d, h, min, 0, 0, loc)` of
`GetPrev`: drop the second and nanosecond portions. -/
def truncateMinute (t : DT) : DT := ⟨t.year, t.month, t.day, t.hour, t.minute, 0, 0⟩

theorem unitStart_valid {ref : DT} (h : Valid ref) (pos : Nat) : Valid (unitStart ref pos) := by
  obtain ⟨h1, h2, h3, h4, h5, h6, h7, h8⟩ := h
  have g1 : 1 ≤ daysInMonth ref.year 1 := dimN_pos (isLeap ref.year) 1 (by omega) (by omega)
  have g2 : 1 ≤ daysInMonth ref.year ref.month := by omega
  have z59 : (0 : Nat) ≤ 59 := by decide
  have z23 : (0 : Nat) ≤ 23 := by decide
  have z9 : (0 : Nat) ≤ 999999999 := by decide
  have o1 : (1 : Nat) ≤ 1 := by decide
  have o12 : (1 : Nat) ≤ 12 := by decide
  match pos with
  | 5 => exact ⟨o1, o12, o1, g1, z23, z59, z59, z9⟩
  | 3 => exact ⟨h1, h2, o1, g2, z23, z59, z59, z9⟩
  | 2 => exact ⟨h1, h2, h3, h4, z23, z59, z59, z9⟩
  | 4 => exact ⟨h1, h2, h3, h4, z23, z59, z59, z9⟩
  | 1 => exact ⟨h1, h2, h3, h4, h5, z59, z59, z9⟩
  | 0 => exact ⟨h1, h2, h3, h4, h5, h6, z59, z9⟩
  | (n+6) => exact ⟨h1, h2, h3, h4, h5, h6, h7, h8⟩

theorem truncateMinute_valid {t : DT} (h : Valid t) : Valid (truncateMinute t) := by
  obtain ⟨h1, h2, h3, h4, h5, h6, h7, h8⟩ := h
  exact ⟨h1, h2, h3, h4, h5, h6, show (0 : Nat) ≤ 59 by decide, show (0 : Nat) ≤ 999999999
    by decide⟩

/-- Whitespace recognized by the `\s` class of Go's regexp (`SpaceRe`). -/
def isWsChar (c : Char) : Bool := c = ' ' || c = '\t' || c = '\n' || c = '\r' || c = '\x0c'

/-- Characters of the cutset of `strings.Trim(expr, " \t")`. -/
def isCutChar (c : Char) : Bool := c = ' ' || c = '\t'

/-- Embedding of `strings.Trim(expr, " \t")`. -/
def trimCut (cs : List Char) : List Char :=
  ((cs.dropWhile isCutChar).reverse.dropWhile isCutChar).reverse

/-- Worker for `collapseWs`; the flag records whether the previous character
belonged to a whitespace run already replaced by a single space. -/
def collapseWsAux : Bool → List Char → List Char
  | _, [] => []
  | prevWs, c :: cs =>
    if isWsChar c then
      if prevWs then collapseWsAux true cs else ' ' :: collapseWsAux true cs
    else c :: collapseWsAux false cs

/-- Embedding of `SpaceRe.ReplaceAllString(expr, " ")`: each maximal run of
whitespace becomes one space. -/
def collapseWs (cs : List Char) : List Char := collapseWsAux false cs

/-- Embedding of the `expressions` alias map of `gronx.go`. -/
def expressions : List (String × String) :=
  [("@yearly", "0 0 1 1 *"), ("@annually", "0 0 1 1 *"), ("@monthly", "0 0 1 * *"),
   ("@weekly", "0 0 * * 0"), ("@daily", "0 0 * * *"), ("@hourly", "0 * * * *"),
   ("@always", "* * * * *"), ("@5minutes", "*/5 * * * *"), ("@10minutes", "*/10 * * * *"),
   ("@15minutes", "*/15 * * * *"), ("@30minutes", "0,30 * * * *")]

/-- Embedding of `expressions[strings.ToLower(expr)]`. -/
def lookupAlias (cs : List Char) : Option String :=
  (expressions.find? (fun p => p.1.data == cs.map Char.toLower)).map (fun p => p.2)

/-- Embedding of the `literals` replacer table, in argument order. -/
def litTable : List (List Char × List Char) :=
  [(['S','U','N'], ['0']), (['M','O','N'], ['1']), (['T','U','E'], ['2']), (['W','E','D'], ['3']),
   (['T','H','U'], ['4']), (['F','R','I'], ['5']), (['S','A','T'], ['6']),
   (['J','A','N'], ['1']), (['F','E','B'], ['2']), (['M','A','R'], ['3']), (['A','P','R'], ['4']),
   (['M','A','Y'], ['5']), (['J','U','N'], ['6']), (['J','U','L'], ['7']), (['A','U','G'], ['8']),
   (['S','E','P'], ['9']), (['O','C','T'], ['1','0']), (['N','O','V'], ['1','1']),
   (['D','E','C'], ['1','2'])]

/-- First replacer pattern matching the three characters, if any. -/
def lit3 (a b c : Char) : Option (List Char) :=
  (litTable.find? (fun p => p.1 == [a, b, c])).map (fun p => p.2)

/-- Embedding of `literals.Replace`: scan left to right; at each position emit
the replacement of the first matching 3-letter pattern, else copy the char.
All patterns have length 3, which the Go replacer trie also relies on. -/
def replaceLits : List Char → List Char
  | [] => []
  | [c] => [c]
  | [c, d] => [c, d]
  | a :: b :: c :: rest =>
    match lit3 a b c with
    | some rep => rep ++ replaceLits rest
    | none => a :: replaceLits (b :: c :: rest)

/-- Embedding of `strings.ReplaceAll(expr, "  ", " ")` (left-to-right,
non-overlapping). -/
def collapsePairs : List Char → List Char
  | [] => []
  | ' ' :: ' ' :: cs => ' ' :: collapsePairs cs
  | c :: cs => c :: collapsePairs cs

/-- Worker for splitting on single spaces, as `strings.Split(expr, " ")`. -/
def splitSpaceAux (acc : List Char) : List Char → List String
  | [] => [String.mk acc.reverse]
  | c :: cs =>
    if c = ' ' then String.mk acc.reverse :: splitSpaceAux [] cs
    else splitSpaceAux (c :: acc) cs

/-- Alias substitution step of `normalize`: replace the whole trimmed string
by its canonical form when it is a known tag. -/
def aliasStep (cs : List Char) : List Char :=
  match lookupAlias cs with
  | some e => e.data
  | none => cs

/-- Embedding of `normalize` from `gronx.go`: trim spaces and tabs, expand a
whole-string alias, collapse whitespace runs, uppercase and substitute the
month/weekday names, drop double spaces, split on spaces. -/
def normalize (expr : String) : List String :=
  splitSpaceAux []
    (collapsePairs (replaceLits ((collapseWs (aliasStep (trimCut expr.data))).map Char.toUpper)))

/-- Error outcomes of the engine, one constructor per distinct `error` the Go
code creates (plus `unknownPos` standing for the `panic` of `getPrevTime`). -/
inductive Err where
  | wrongFieldCount
  | malformed
  | outOfDomain
  | searchExhausted
  | unknownPos
deriving DecidableEq, Repr

instance {ε α : Type} [DecidableEq ε] [DecidableEq α] : DecidableEq (Except ε α) := fun x y =>
  match x, y with
  | .ok a, .ok b =>
    if h : a = b then isTrue (by rw [h]) else isFalse (fun hc => h (Except.ok.inj hc))
  | .error a, .error b =>
    if h : a = b then isTrue (by rw [h]) else isFalse (fun hc => h (Except.error.inj hc))
  | .ok _, .error _ => isFalse (fun hc => Except.noConfusion hc)
  | .error _, .ok _ => isFalse (fun hc => Except.noConfusion hc)

/-- Embedding of `Segments`: normalize, then require 5 or 6 fields. -/
def Segments (expr : String) : Except Err (List String) :=
  let segs := normalize expr
  if segs.length < 5 ∨ 6 < segs.length then Except.error Err.wrongFieldCount
  else Except.ok segs

/-- Worker for `splitOn`. -/
def splitOnAux (sep : Char) (acc : List Char) : List Char → List (List Char)
  | [] => [acc.reverse]
  | c :: cs =>
    if c = sep then acc.reverse :: splitOnAux sep [] cs else splitOnAux sep (c :: acc) cs

/-- Split a character list on a separator character. -/
def splitOn (sep : Char) (cs : List Char) : List (List Char) := splitOnAux sep [] cs

/-- Worker for `parseNat`. -/
def parseNatCore : List Char → Nat → Option Nat
  | [], acc => some acc
  | c :: cs, acc => if c.isDigit then parseNatCore cs (acc * 10 + (c.toNat - 48)) else none

/-- Parse a nonempty all-digit character list as a natural number. -/
def parseNat : List Char → Option Nat
  | [] => none
  | cs => parseNatCore cs 0

/-- Modelled from the spec: the numeric sub-expression semantics of the
Segment Matcher (section 4.3), which is not part of the given sources.  A
sub-expression over a field with domain `[lo, hi]` and current value `val` is
a wildcard, an exact integer, an inclusive range, or a stepped range; values
outside the domain give `OutOfDomain`, unparsable text gives
`MalformedSubexpression`. -/
def checkNumSub (lo hi val : Nat) (sub : List Char) : Except Err Bool :=
  match splitOn '/' sub with
  | [base] =>
    if base = ['*'] ∨ base = ['?'] then Except.ok true
    else
      match splitOn '-' base with
      | [s1] =>
        match parseNat s1 with
        | none => Except.error Err.malformed
        | some n =>
          if n < lo ∨ hi < n then Except.error Err.outOfDomain
          else Except.ok (val == n)
      | [s1, s2] =>
        match parseNat s1, parseNat s2 with
        | some a, some b =>
          if a < lo ∨ hi < a ∨ b < lo ∨ hi < b then Except.error Err.outOfDomain
          else Except.ok (decide (a ≤ val) && decide (val ≤ b))
        | _, _ => Except.error Err.malformed
      | _ => Except.error Err.malformed
  | [base, stepS] =>
    match parseNat stepS with
    | none => Except.error Err.malformed
    | some c =>
      if base = ['*'] then
        Except.ok (decide (lo ≤ val) && decide (val ≤ hi) && ((val - lo) % c == 0))
      else
        match splitOn '-' base with
        | [s1, s2] =>
          match parseNat s1, parseNat s2 with
          | some a, some b =>
            if a < lo ∨ hi < a ∨ b < lo ∨ hi < b then Except.error Err.outOfDomain
            else Except.ok (decide (a ≤ val) && decide (val ≤ b) && ((val - a) % c == 0))
          | _, _ => Except.error Err.malformed
        | _ => Except.error Err.malformed
  | _ => Except.error Err.malformed

/-- Weekday of a date, `0` = Sunday, on the proleptic Gregorian calendar. -/
def weekday (y : Int) (m d : Nat) : Nat :=
  ((dby y + (dbmN (isLeap y) m + (d - 1)) + 6) % 7).toNat

/-- Modelled from the spec: the day that the `NW` (nearest weekday) modifier
designates for target day `n` — `n` itself on Mon-Fri, the Friday before for a
Saturday (Monday after when `n = 1`), the Monday after for a Sunday (Friday
before when that Monday leaves the month); shifts never cross the month. -/
def nearestWeekdayDay (y : Int) (m n : Nat) : Nat :=
  let wd := weekday y m n
  if wd = 6 then (if n = 1 then 3 else n - 1)
  else if wd = 0 then (if n + 1 ≤ daysInMonth y m then n + 1 else n - 2)
  else n

/-- Modelled from the spec: day-of-month sub-expression semantics — `L` is the
last day of the month, `NW` the nearest weekday to day `N`, anything else the
numeric semantics over domain 1-31. -/
def checkDomSub (y : Int) (m d : Nat) (sub : List Char) : Except Err Bool :=
  if sub = ['L'] then Except.ok (d == daysInMonth y m)
  else
    match sub.reverse with
    | 'W' :: restRev =>
      match parseNat restRev.reverse with
      | none => Except.error Err.malformed
      | some n =>
        if n < 1 ∨ 31 < n then Except.error Err.outOfDomain
        else Except.ok (d == nearestWeekdayDay y m n)
    | _ => checkNumSub 1 31 d sub

/-- Modelled from the spec: day-of-week sub-expression semantics — `NL` is the
last weekday `N` of the month (weekday matches and the date is in the final
seven days), `N#M` the `M`-th weekday `N` of the month with `M` outside 1-5 an
error, anything else the numeric semantics over domain 0-6. -/
def checkDowSub (y : Int) (m d : Nat) (sub : List Char) : Except Err Bool :=
  match splitOn '#' sub with
  | [s1, s2] =>
    match parseNat s1, parseNat s2 with
    | some n, some k =>
      if 6 < n then Except.error Err.outOfDomain
      else if k < 1 ∨ 5 < k then Except.error Err.outOfDomain
      else Except.ok (weekday y m d == n && (d - 1) / 7 + 1 == k)
    | _, _ => Except.error Err.malformed
  | [s] =>
    match s.reverse with
    | 'L' :: restRev =>
      match parseNat restRev.reverse with
      | none => Except.error Err.malformed
      | some n =>
        if 6 < n then Except.error Err.outOfDomain
        else Except.ok (weekday y m d == n && daysInMonth y m < d + 7)
    | _ => checkNumSub 0 6 (weekday y m d) s
  | _ => Except.error Err.malformed

/-- Modelled from the spec: year sub-expression semantics; the year domain is
unbounded, so no domain check is performed on parsed bounds. -/
def checkYearSub (y : Int) (sub : List Char) : Except Err Bool :=
  match splitOn '/' sub with
  | [base] =>
    if base = ['*'] ∨ base = ['?'] then Except.ok true
    else
      match splitOn '-' base with
      | [s1] =>
        match parseNat s1 with
        | none => Except.error Err.malformed
        | some n => Except.ok (y == (n : Int))
      | [s1, s2] =>
        match parseNat s1, parseNat s2 with
        | some a, some b => Except.ok (decide ((a : Int) ≤ y) && decide (y ≤ (b : Int)))
        | _, _ => Except.error Err.malformed
      | _ => Except.error Err.malformed
  | [base, stepS] =>
    match parseNat stepS with
    | none => Except.error Err.malformed
    | some c =>
      if base = ['*'] then Except.ok (decide (0 ≤ y) && (y % (c : Int) == 0))
      else
        match splitOn '-' base with
        | [s1, s2] =>
          match parseNat s1, parseNat s2 with
          | some a, some b =>
            Except.ok (decide ((a : Int) ≤ y) && decide (y ≤ (b : Int)) &&
              ((y - (a : Int)) % (c : Int) == 0))
          | _, _ => Except.error Err.malformed
        | _ => Except.error Err.malformed
  | _ => Except.error Err.malformed

/-- Disjunction of sub-expression checks over a comma list: left to right, an
error aborts, a match succeeds. -/
def orSubs (f : List Char → Except Err Bool) : List (List Char) → Bool × Option Err
  | [] => (false, none)
  | s :: rest =>
    match f s with
    | Except.error e => (false, some e)
    | Except.ok true => (true, none)
    | Except.ok false => orSubs f rest

/-- Modelled from the spec: the Segment Matcher (`SegmentChecker.CheckDue`,
not among the given sources).  The comma list of the field is an OR of
sub-expressions; the field position selects the field value and the dialect of
sub-expressions.  Only the listed projections of `t` are consulted. -/
def CheckDue (seg : String) (pos : Nat) (t : DT) : Bool × Option Err :=
  match pos with
  | 0 => orSubs (checkNumSub 0 59 t.minute) (splitOn ',' seg.data)
  | 1 => orSubs (checkNumSub 0 23 t.hour) (splitOn ',' seg.data)
  | 2 => orSubs (checkDomSub t.year t.month t.day) (splitOn ',' seg.data)
  | 3 => orSubs (checkNumSub 1 12 t.month) (splitOn ',' seg.data)
  | 4 => orSubs (checkDowSub t.year t.month t.day) (splitOn ',' seg.data)
  | 5 => orSubs (checkYearSub t.year) (splitOn ',' seg.data)
  | _ => (false, some Err.malformed)

/-- Shape of a checker: the `Checker` interface with the reference time passed
explicitly (`SetRef` stores it, `CheckDue` reads it). -/
def CheckFun : Type := String → Nat → DT → Bool × Option Err

/-- Embedding of the loop body of `SegmentsDue`, indexed by the position of
the first remaining segment. -/
def SegmentsDueAux (check : CheckFun) (t : DT) : Nat → List String → Bool × Option Err
  | _, [] => (true, none)
  | pos, seg :: rest =>
    if seg = "*" ∨ seg = "?" then SegmentsDueAux check t (pos + 1) rest
    else
      match check seg pos t with
      | (true, _) => SegmentsDueAux check t (pos + 1) rest
      | (false, e) => (false, e)

/-- Embedding of `SegmentsDue`: every non-wildcard segment must be due; the
first non-due segment is returned together with its error value. -/
def SegmentsDue (check : CheckFun) (t : DT) (segs : List String) : Bool × Option Err :=
  SegmentsDueAux check t 0 segs

/-- Embedding of `IsDue` for an explicit reference time. -/
def IsDue (check : CheckFun) (expr : String) (t : DT) : Bool × Option Err :=
  match Segments expr with
  | Except.error e => (false, some e)
  | Except.ok segs => SegmentsDue check t segs

/-- Scan order of `GetPrev`: `PosYear, PosMonth, PosDayOfMonth, PosDayOfWeek,
PosHour, PosMinute`. -/
def posOrder : List Nat := [5, 3, 2, 4, 1, 0]

/-- Embedding of one scan of the `GetPrev` loop body: find the first position
in the given order whose segment is present, non-wildcard and not due; a
checker error aborts the whole search. -/
def scanPositions (check : CheckFun) (segs : List String) (t : DT) :
    List Nat → Except Err (Option Nat)
  | [] => Except.ok none
  | pos :: rest =>
    if pos < segs.length then
      if segs.getD pos "" = "*" ∨ segs.getD pos "" = "?" then scanPositions check segs t rest
      else
        match check (segs.getD pos "") pos t with
        | (_, some e) => Except.error e
        | (true, none) => scanPositions check segs t rest
        | (false, none) => Except.ok (some pos)
    else scanPositions check segs t rest

/-- Embedding of the labelled `for yearsLeftToCheck > 0` loop of `GetPrev`.
The `fuel` argument counts loop iterations; `none` means the fuel ran out, an
outcome the termination theorem rules out for the fuel below. -/
def getPrevLoop (check : CheckFun) (segs : List String) :
    Nat → Nat → DT → Option (Except Err DT)
  | 0, _, _ => none
  | fuel + 1, budget, t =>
    if budget = 0 then some (Except.error Err.searchExhausted)
    else
      match scanPositions check segs t posOrder with
      | Except.error e => some (Except.error e)
      | Except.ok none => some (Except.ok t)
      | Except.ok (some pos) =>
        match getPrevTime t pos with
        | none => some (Except.error Err.unknownPos)
        | some (prev, ych) =>
          getPrevLoop check segs fuel (if ych then budget - 1 else budget) prev

/-- Loop-iteration bound sufficient for every start state: the year budget of
100 plus one slack year, times the minutes of a longest year, plus one. -/
def FUEL : Nat := 53231041

/-- Embedding of `GetPrev` for an explicit reference time: split the fields,
run the backward search with a year budget of 100, and zero the second and
nanosecond portions of a successful result. -/
def GetPrev (check : CheckFun) (expr : String) (t : DT) : Option (Except Err DT) :=
  match Segments expr with
  | Except.error e => some (Except.error e)
  | Except.ok segs =>
    (getPrevLoop check segs FUEL 100 t).map (fun r => r.map truncateMinute)

/-- Minute-of-year of an instant, the fine component of the loop measure. -/
def moy (t : DT) : Nat := dayOfYear t * 1440 + t.hour * 60 + t.minute

theorem moy_lt (t : DT) (h : Valid t) : moy t < 527040 := by
  have h1 := dayOfYear_lt t h
  have h2 := (diyN_bounds (isLeap t.year)).2
  obtain ⟨-, -, -, -, h5, h6, -, -⟩ := h
  unfold moy
  omega

theorem minuteIdx_moy (t : DT) : minuteIdx t = dby t.year * 1440 + (moy t : Int) := by
  unfold minuteIdx rataDie moy
  push_cast
  ring

theorem unitStart_aligned {pos : Nat} (hp : pos ≤ 5) (r : DT) :
    (unitStart r pos).second = 0 ∧ (unitStart r pos).nano = 0 := by
  interval_cases pos <;> exact ⟨rfl, rfl⟩

theorem minuteIdx_unitStart_le {r : DT} (hr : Valid r) {pos : Nat} (hp : pos ≤ 5) :
    minuteIdx (unitStart r pos) ≤ minuteIdx r := by
  obtain ⟨h1, h2, h3, h4, h5, h6, h7, h8⟩ := hr
  interval_cases pos <;>
    simp only [minuteIdx, rataDie, dayOfYear, unitStart] <;> push_cast <;>
    first
      | omega
      | (have hz : dbmN (isLeap r.year) 1 = 0 := by cases isLeap r.year <;> rfl
         omega)

theorem toNano_unitStart_le {r : DT} (hr : Valid r) {pos : Nat} (hp : pos ≤ 5) :
    toNano (unitStart r pos) ≤ toNano r := by
  have hm := minuteIdx_unitStart_le hr hp
  have ha := unitStart_aligned hp r
  obtain ⟨-, -, -, -, -, -, h7, h8⟩ := hr
  unfold toNano
  interval_cases pos <;>
    (obtain ⟨ha1, ha2⟩ := ha; rw [ha1, ha2]) <;> omega

theorem getPrevTime_eq {pos : Nat} (hp : pos ≤ 5) (r : DT) :
    getPrevTime r pos =
      some (subNano (unitStart r pos), (subNano (unitStart r pos)).year != r.year) := by
  interval_cases pos <;> rfl

theorem regress_valid {r : DT} (hr : Valid r) {pos : Nat} (hp : pos ≤ 5) :
    Valid (subNano (unitStart r pos)) :=
  subNano_valid (unitStart_valid hr pos)

theorem regress_toNano {r : DT} (hr : Valid r) {pos : Nat} (hp : pos ≤ 5) :
    toNano (subNano (unitStart r pos)) = toNano (unitStart r pos) - 1 :=
  subNano_toNano (unitStart_valid hr pos)

theorem regress_lt {r : DT} (hr : Valid r) {pos : Nat} (hp : pos ≤ 5) :
    toNano (subNano (unitStart r pos)) < toNano r := by
  have h1 := regress_toNano hr hp
  have h2 := toNano_unitStart_le hr hp
  omega

theorem regress_minuteIdx {r : DT} (hr : Valid r) {pos : Nat} (hp : pos ≤ 5) :
    minuteIdx (subNano (unitStart r pos)) = minuteIdx (unitStart r pos) - 1 := by
  have h1 := regress_toNano hr hp
  obtain ⟨ha1, ha2⟩ := unitStart_aligned hp r
  obtain ⟨hs1, hs2⟩ := subNano_second_nano ha1 ha2
  unfold toNano at h1
  rw [ha1, ha2, hs1, hs2] at h1
  omega

theorem moy_step {r : DT} (hr : Valid r) {pos : Nat} (hp : pos ≤ 5)
    (hy : (subNano (unitStart r pos)).year = r.year) :
    moy (subNano (unitStart r pos)) < moy r := by
  have h1 := regress_minuteIdx hr hp
  have h2 := minuteIdx_unitStart_le hr hp
  have h3 := minuteIdx_moy (subNano (unitStart r pos))
  have h4 := minuteIdx_moy r
  rw [hy] at h3
  omega

theorem scanPositions_mem (check : CheckFun) (segs : List String) (t : DT) :
    ∀ l : List Nat, ∀ pos : Nat, scanPositions check segs t l = Except.ok (some pos) →
      pos ∈ l := by
  intro l
  induction l with
  | nil => intro pos h; exact absurd (Except.ok.inj h) (by simp)
  | cons p rest ih =>
    intro pos h
    unfold scanPositions at h
    by_cases hl : p < segs.length
    · rw [if_pos hl] at h
      by_cases hw : segs.getD p "" = "*" ∨ segs.getD p "" = "?"
      · rw [if_pos hw] at h
        exact List.mem_cons_of_mem p (ih pos h)
      · rw [if_neg hw] at h
        match hc : check (segs.getD p "") p t with
        | (b, some e) => rw [hc] at h; cases b <;> exact absurd h (by simp)
        | (true, none) => rw [hc] at h; exact List.mem_cons_of_mem p (ih pos h)
        | (false, none) =>
          rw [hc] at h
          have : p = pos := (Option.some.inj (Except.ok.inj h))
          rw [this]
          exact List.mem_cons_self pos rest
    · rw [if_neg hl] at h
      exact List.mem_cons_of_mem p (ih pos h)

theorem posOrder_le {pos : Nat} (h : pos ∈ posOrder) : pos ≤ 5 := by
  simp [posOrder] at h
  omega

theorem getPrevLoop_total (check : CheckFun) (segs : List String) :
    ∀ fuel budget : Nat, ∀ t : DT, Valid t → budget * 527040 + moy t < fuel →
      getPrevLoop check segs fuel budget t ≠ none := by
  intro fuel
  induction fuel with
  | zero => intro budget t _ hm; omega
  | succ fuel ih =>
    intro budget t ht hm
    unfold getPrevLoop
    by_cases hb : budget = 0
    · rw [if_pos hb]; exact Option.noConfusion
    · rw [if_neg hb]
      match hs : scanPositions check segs t posOrder with
      | Except.error e => exact Option.noConfusion
      | Except.ok none => exact Option.noConfusion
      | Except.ok (some pos) =>
        have hp : pos ≤ 5 := posOrder_le (scanPositions_mem check segs t posOrder pos hs)
        dsimp only
        rw [getPrevTime_eq hp t]
        have hv : Valid (subNano (unitStart t pos)) := regress_valid ht hp
        by_cases hy : (subNano (unitStart t pos)).year = t.year
        · have hflag : ((subNano (unitStart t pos)).year != t.year) = false := by
            simp [hy]
          rw [hflag]
          simp only [if_neg (Bool.false_ne_true)]
          apply ih budget (subNano (unitStart t pos)) hv
          have := moy_step ht hp hy
          omega
        · have hflag : ((subNano (unitStart t pos)).year != t.year) = true := by
            simp [hy]
          rw [hflag]
          simp only [if_pos rfl]
          apply ih (budget - 1) (subNano (unitStart t pos)) hv
          have := moy_lt (subNano (unitStart t pos)) hv
          have hmt : 0 ≤ moy t := Nat.zero_le _
          omega

theorem toNano_decomp (t : DT) :
    toNano t = minuteIdx t * 60000000000 + (t.second * 1000000000 + t.nano) := by
  unfold toNano
  push_cast
  ring

theorem dbmN_1 (l : Bool) : dbmN l 1 = 0 := by cases l <;> rfl

theorem toNano_us5 (r : DT) : toNano (unitStart r 5) = dby r.year * 86400000000000 := by
  simp only [toNano_eq, rataDie, dayOfYear, unitStart, dbmN_1]
  push_cast
  ring

theorem toNano_us3 (r : DT) : toNano (unitStart r 3) =
    (dby r.year + dbmN (isLeap r.year) r.month) * 86400000000000 := by
  simp only [toNano_eq, rataDie, dayOfYear, unitStart]
  push_cast
  ring

theorem toNano_us2 (r : DT) : toNano (unitStart r 2) = rataDie r * 86400000000000 := by
  simp only [toNano_eq, rataDie, dayOfYear, unitStart]
  push_cast
  ring

theorem toNano_us1 (r : DT) : toNano (unitStart r 1) =
    rataDie r * 86400000000000 + r.hour * 3600000000000 := by
  simp only [toNano_eq, rataDie, dayOfYear, unitStart]
  push_cast
  ring

theorem toNano_us0 (r : DT) : toNano (unitStart r 0) = rataDie r * 86400000000000 +
    r.hour * 3600000000000 + r.minute * 60000000000 := by
  simp only [toNano_eq, rataDie, dayOfYear, unitStart]
  push_cast
  ring

theorem between_year {u r : DT} (hu : Valid u) (hr : Valid r)
    (h1 : toNano (unitStart r 5) ≤ toNano u) (h2 : toNano u ≤ toNano r) :
    u.year = r.year := by
  obtain ⟨hbu1, hbu2⟩ := rataDie_bounds u hu
  obtain ⟨hbr1, hbr2⟩ := rataDie_bounds r hr
  obtain ⟨-, -, -, -, hu5, hu6, hu7, hu8⟩ := hu
  obtain ⟨-, -, -, -, hr5, hr6, hr7, hr8⟩ := hr
  rw [toNano_us5] at h1
  rw [toNano_eq] at h1 h2
  rw [toNano_eq] at h2
  exact year_unique hbu1 hbu2 (by omega) (by omega)

theorem between_month {u r : DT} (hu : Valid u) (hr : Valid r)
    (h1 : toNano (unitStart r 3) ≤ toNano u) (h2 : toNano u ≤ toNano r) :
    u.year = r.year ∧ u.month = r.month := by
  have hu' := hu
  have hr' := hr
  obtain ⟨hbu1, hbu2⟩ := rataDie_bounds u hu
  obtain ⟨hbr1, hbr2⟩ := rataDie_bounds r hr
  obtain ⟨hu1, hu2, hu3, hu4, hu5, hu6, hu7, hu8⟩ := hu'
  obtain ⟨hr1, hr2, hr3, hr4, hr5, hr6, hr7, hr8⟩ := hr'
  rw [toNano_us3] at h1
  rw [toNano_eq] at h1 h2
  rw [toNano_eq] at h2
  have hdim := dbmN_add_dim_le (isLeap r.year) r.month hr1 hr2
  unfold daysInMonth at hr4 hu4
  have hrdr : rataDie r = dby r.year + (dbmN (isLeap r.year) r.month + (r.day - 1) : Nat) := rfl
  have hrdu : rataDie u = dby u.year + (dbmN (isLeap u.year) u.month + (u.day - 1) : Nat) := rfl
  have hy : u.year = r.year := by
    apply year_unique hbu1 hbu2 <;> omega
  refine ⟨hy, ?_⟩
  rw [hy] at hrdu hu4
  apply month_unique (isLeap r.year) u.month r.month
    (dbmN (isLeap r.year) u.month + (u.day - 1)) hu1 hu2 hr1 hr2
  · omega
  · have hpos : 1 ≤ dimN (isLeap r.year) u.month := dimN_pos _ _ hu1 hu2
    omega
  · omega
  · omega

theorem between_day {u r : DT} (hu : Valid u) (hr : Valid r)
    (h1 : toNano (unitStart r 2) ≤ toNano u) (h2 : toNano u ≤ toNano r) :
    u.year = r.year ∧ u.month = r.month ∧ u.day = r.day := by
  have hu' := hu
  have hr' := hr
  obtain ⟨-, -, -, -, hu5, hu6, hu7, hu8⟩ := hu'
  obtain ⟨-, -, -, -, hr5, hr6, hr7, hr8⟩ := hr'
  rw [toNano_us2] at h1
  rw [toNano_eq] at h1 h2
  rw [toNano_eq] at h2
  have hrd : rataDie u = rataDie r := by omega
  exact rataDie_inj hu hr hrd

theorem between_hour {u r : DT} (hu : Valid u) (hr : Valid r)
    (h1 : toNano (unitStart r 1) ≤ toNano u) (h2 : toNano u ≤ toNano r) :
    u.year = r.year ∧ u.month = r.month ∧ u.day = r.day ∧ u.hour = r.hour := by
  have hu' := hu
  have hr' := hr
  obtain ⟨-, -, -, -, hu5, hu6, hu7, hu8⟩ := hu'
  obtain ⟨-, -, -, -, hr5, hr6, hr7, hr8⟩ := hr'
  rw [toNano_us1] at h1
  rw [toNano_eq] at h1 h2
  rw [toNano_eq] at h2
  have hrd : rataDie u = rataDie r ∧ u.hour = r.hour := by omega
  obtain ⟨hy, hm, hd⟩ := rataDie_inj hu hr hrd.1
  exact ⟨hy, hm, hd, hrd.2⟩

theorem between_minute {u r : DT} (hu : Valid u) (hr : Valid r)
    (h1 : toNano (unitStart r 0) ≤ toNano u) (h2 : toNano u ≤ toNano r) :
    u.year = r.year ∧ u.month = r.month ∧ u.day = r.day ∧ u.hour = r.hour ∧
      u.minute = r.minute := by
  have hu' := hu
  have hr' := hr
  obtain ⟨-, -, -, -, hu5, hu6, hu7, hu8⟩ := hu'
  obtain ⟨-, -, -, -, hr5, hr6, hr7, hr8⟩ := hr'
  rw [toNano_us0] at h1
  rw [toNano_eq] at h1 h2
  rw [toNano_eq] at h2
  have hrd : rataDie u = rataDie r ∧ u.hour = r.hour ∧ u.minute = r.minute := by omega
  obtain ⟨hy, hm, hd⟩ := rataDie_inj hu hr hrd.1
  exact ⟨hy, hm, hd, hrd.2.1, hrd.2.2⟩

theorem CheckDue_eq_of_fields (seg : String) (pos : Nat) {u v : DT}
    (hy : u.year = v.year) (hm : u.month = v.month) (hd : u.day = v.day)
    (hh : u.hour = v.hour) (hmin : u.minute = v.minute) :
    CheckDue seg pos u = CheckDue seg pos v := by
  unfold CheckDue
  rw [hy, hm, hd, hh, hmin]

theorem CheckDue_between (seg : String) {u r : DT} (hu : Valid u) (hr : Valid r) {pos : Nat}
    (hp : pos ≤ 5) (h1 : toNano (unitStart r pos) ≤ toNano u) (h2 : toNano u ≤ toNano r) :
    CheckDue seg pos u = CheckDue seg pos r := by
  interval_cases pos
  · obtain ⟨-, -, -, -, h5⟩ := between_minute hu hr h1 h2
    show orSubs (checkNumSub 0 59 u.minute) (splitOn ',' seg.data) =
      orSubs (checkNumSub 0 59 r.minute) (splitOn ',' seg.data)
    rw [h5]
  · obtain ⟨-, -, -, h4⟩ := between_hour hu hr h1 h2
    show orSubs (checkNumSub 0 23 u.hour) (splitOn ',' seg.data) =
      orSubs (checkNumSub 0 23 r.hour) (splitOn ',' seg.data)
    rw [h4]
  · obtain ⟨a, b, c⟩ := between_day hu hr h1 h2
    show orSubs (checkDomSub u.year u.month u.day) (splitOn ',' seg.data) =
      orSubs (checkDomSub r.year r.month r.day) (splitOn ',' seg.data)
    rw [a, b, c]
  · obtain ⟨-, b⟩ := between_month hu hr h1 h2
    show orSubs (checkNumSub 1 12 u.month) (splitOn ',' seg.data) =
      orSubs (checkNumSub 1 12 r.month) (splitOn ',' seg.data)
    rw [b]
  · have h1' : toNano (unitStart r 2) ≤ toNano u := h1
    obtain ⟨a, b, c⟩ := between_day hu hr h1' h2
    show orSubs (checkDowSub u.year u.month u.day) (splitOn ',' seg.data) =
      orSubs (checkDowSub r.year r.month r.day) (splitOn ',' seg.data)
    rw [a, b, c]
  · have a := between_year hu hr h1 h2
    show orSubs (checkYearSub u.year) (splitOn ',' seg.data) =
      orSubs (checkYearSub r.year) (splitOn ',' seg.data)
    rw [a]

theorem SegmentsDueAux_true_iff (check : CheckFun) (t : DT) :
    ∀ (segs : List String) (start : Nat),
      SegmentsDueAux check t start segs = (true, none) ↔
        (∀ i, i < segs.length → ¬(segs.getD i "" = "*" ∨ segs.getD i "" = "?") →
          (check (segs.getD i "") (start + i) t).1 = true) := by
  intro segs
  induction segs with
  | nil =>
    intro start
    constructor
    · intro _ i hi _
      exact absurd hi (by simp)
    · intro _
      rfl
  | cons s rest ih =>
    intro start
    unfold SegmentsDueAux
    by_cases hw : s = "*" ∨ s = "?"
    · rw [if_pos hw, ih (start + 1)]
      constructor
      · intro h i hi hnw
        match i with
        | 0 => exact absurd hw (by simpa using hnw)
        | j + 1 =>
          have hj := h j (by simpa using hi) (by simpa using hnw)
          have e : start + 1 + j = start + (j + 1) := by omega
          rw [e] at hj
          simpa using hj
      · intro h j hj hnw
        have hg := h (j + 1) (by simpa using hj) (by simpa using hnw)
        have e : start + 1 + j = start + (j + 1) := by omega
        rw [e]
        simpa using hg
    · rw [if_neg hw]
      rcases hc : check s start t with ⟨b, e⟩
      cases b
      · constructor
        · intro h
          exact absurd h (by simp)
        · intro h
          have h0 := h 0 (by simp) (by simpa using hw)
          rw [Nat.add_zero] at h0
          simp only [List.getD_cons_zero] at h0
          rw [hc] at h0
          exact absurd h0 (by simp)
      · rw [show (match ((true : Bool), e) with
            | (true, _) => SegmentsDueAux check t (start + 1) rest
            | (false, e) => ((false : Bool), e)) = SegmentsDueAux check t (start + 1) rest
            from rfl]
        rw [ih (start + 1)]
        constructor
        · intro h i hi hnw
          match i with
          | 0 =>
            rw [Nat.add_zero]
            simp only [List.getD_cons_zero]
            rw [hc]
          | j + 1 =>
            have hj := h j (by simpa using hi) (by simpa using hnw)
            have he : start + 1 + j = start + (j + 1) := by omega
            rw [he] at hj
            simpa using hj
        · intro h j hj hnw
          have hg := h (j + 1) (by simpa using hj) (by simpa using hnw)
          have he : start + 1 + j = start + (j + 1) := by omega
          rw [he]
          simpa using hg

theorem SegmentsDue_true_iff (check : CheckFun) (t : DT) (segs : List String) :
    SegmentsDue check t segs = (true, none) ↔
      (∀ i, i < segs.length → ¬(segs.getD i "" = "*" ∨ segs.getD i "" = "?") →
        (check (segs.getD i "") i t).1 = true) := by
  unfold SegmentsDue
  rw [SegmentsDueAux_true_iff]
  constructor
  · intro h i hi hnw
    have := h i hi hnw
    rwa [Nat.zero_add] at this
  · intro h i hi hnw
    rw [Nat.zero_add]
    exact h i hi hnw

theorem scanPositions_none_all (check : CheckFun) (segs : List String) (t : DT) :
    ∀ l : List Nat, scanPositions check segs t l = Except.ok none →
      ∀ pos ∈ l, pos < segs.length →
        ¬(segs.getD pos "" = "*" ∨ segs.getD pos "" = "?") →
        check (segs.getD pos "") pos t = (true, none) := by
  intro l
  induction l with
  | nil =>
    intro _ pos hm
    exact absurd hm (by simp)
  | cons p rest ih =>
    intro h pos hm hlen hnw
    unfold scanPositions at h
    rcases List.mem_cons.mp hm with he | hm2
    · subst he
      rw [if_pos hlen, if_neg hnw] at h
      rcases hc : check (segs.getD pos "") pos t with ⟨b, e⟩
      rw [hc] at h
      match b, e with
      | true, none => rfl
      | true, some e0 => exact absurd h (by simp)
      | false, none => exact absurd h (by simp)
      | false, some e0 => exact absurd h (by simp)
    · by_cases hl : p < segs.length
      · rw [if_pos hl] at h
        by_cases hw : segs.getD p "" = "*" ∨ segs.getD p "" = "?"
        · rw [if_pos hw] at h
          exact ih h pos hm2 hlen hnw
        · rw [if_neg hw] at h
          rcases hc : check (segs.getD p "") p t with ⟨b, e⟩
          rw [hc] at h
          match b, e with
          | true, none => exact ih h pos hm2 hlen hnw
          | true, some e0 => exact absurd h (by simp)
          | false, none => exact absurd h (by simp)
          | false, some e0 => exact absurd h (by simp)
      · rw [if_neg hl] at h
        exact ih h pos hm2 hlen hnw

theorem scanPositions_some_spec (check : CheckFun) (segs : List String) (t : DT) :
    ∀ l : List Nat, ∀ pos : Nat, scanPositions check segs t l = Except.ok (some pos) →
      pos < segs.length ∧ ¬(segs.getD pos "" = "*" ∨ segs.getD pos "" = "?") ∧
        check (segs.getD pos "") pos t = (false, none) := by
  intro l
  induction l with
  | nil =>
    intro pos h
    exact absurd (Except.ok.inj h) (by simp)
  | cons p rest ih =>
    intro pos h
    unfold scanPositions at h
    by_cases hl : p < segs.length
    · rw [if_pos hl] at h
      by_cases hw : segs.getD p "" = "*" ∨ segs.getD p "" = "?"
      · rw [if_pos hw] at h
        exact ih pos h
      · rw [if_neg hw] at h
        rcases hc : check (segs.getD p "") p t with ⟨b, e⟩
        rw [hc] at h
        match b, e with
        | true, none => exact ih pos h
        | true, some e0 => exact absurd h (by simp)
        | false, none =>
          have : p = pos := Option.some.inj (Except.ok.inj h)
          subst this
          exact ⟨hl, hw, hc⟩
        | false, some e0 => exact absurd h (by simp)
    · rw [if_neg hl] at h
      exact ih pos h

theorem Segments_ok {expr : String} {segs : List String} (h : Segments expr = Except.ok segs) :
    segs = normalize expr ∧ 5 ≤ segs.length ∧ segs.length ≤ 6 := by
  simp only [Segments] at h
  by_cases hc : (normalize expr).length < 5 ∨ 6 < (normalize expr).length
  · rw [if_pos hc] at h
    exact absurd h (by simp)
  · rw [if_neg hc] at h
    push_neg at hc
    have he := Except.ok.inj h
    subst he
    exact ⟨rfl, by omega, by omega⟩

theorem mem_posOrder {i : Nat} (h : i < 6) : i ∈ posOrder := by
  interval_cases i <;> decide

theorem toNano_truncate (t : DT) : toNano (truncateMinute t) = minuteIdx t * 60000000000 := by
  unfold toNano
  have e : minuteIdx (truncateMinute t) = minuteIdx t := rfl
  rw [e]
  show (minuteIdx t * 60 + ((0 : Nat) : Int)) * 1000000000 + ((0 : Nat) : Int) =
    minuteIdx t * 60000000000
  push_cast
  ring

theorem getPrevLoop_invariant (segs : List String) :
    ∀ fuel budget : Nat, ∀ t r : DT, Valid t →
      getPrevLoop CheckDue segs fuel budget t = some (Except.ok r) →
      Valid r ∧ toNano r ≤ toNano t ∧
        scanPositions CheckDue segs r posOrder = Except.ok none ∧
        ∀ u : DT, Valid u → toNano r < toNano u → toNano u ≤ toNano t →
          SegmentsDue CheckDue u segs ≠ (true, none) := by
  intro fuel
  induction fuel with
  | zero =>
    intro budget t r _ h
    exact absurd h (by simp [getPrevLoop])
  | succ fuel ih =>
    intro budget t r ht h
    unfold getPrevLoop at h
    by_cases hb : budget = 0
    · rw [if_pos hb] at h
      exact absurd (Option.some.inj h) (by simp)
    · rw [if_neg hb] at h
      match hs : scanPositions CheckDue segs t posOrder with
      | Except.error e =>
        rw [hs] at h
        exact absurd (Option.some.inj h) (by simp)
      | Except.ok none =>
        rw [hs] at h
        have hr : t = r := Except.ok.inj (Option.some.inj h)
        subst hr
        refine ⟨ht, le_refl _, hs, ?_⟩
        intro u _ hlt hle
        exact absurd (lt_of_lt_of_le hlt hle) (lt_irrefl _)
      | Except.ok (some pos) =>
        rw [hs] at h
        have hp : pos ≤ 5 := posOrder_le (scanPositions_mem CheckDue segs t posOrder pos hs)
        dsimp only at h
        rw [getPrevTime_eq hp t] at h
        dsimp only at h
        have hPv : Valid (subNano (unitStart t pos)) := regress_valid ht hp
        obtain ⟨ihv, ihle, ihscan, ihint⟩ := ih _ (subNano (unitStart t pos)) r hPv h
        have htn := regress_toNano ht hp
        have hus := toNano_unitStart_le ht hp
        refine ⟨ihv, by omega, ihscan, ?_⟩
        intro u hu hlt hle2
        by_cases hc : toNano u ≤ toNano (subNano (unitStart t pos))
        · exact ihint u hu hlt hc
        · push_neg at hc
          obtain ⟨hplen, hpnw, hpfalse⟩ := scanPositions_some_spec CheckDue segs t posOrder pos hs
          have hcd : CheckDue (segs.getD pos "") pos u = CheckDue (segs.getD pos "") pos t :=
            CheckDue_between _ hu ht hp (by omega) hle2
          intro hdue
          rw [SegmentsDue_true_iff] at hdue
          have hx := hdue pos hplen hpnw
          rw [hcd, hpfalse] at hx
          exact absurd hx (by simp)

theorem GetPrev_ok_elim {check : CheckFun} {expr : String} {t p : DT}
    (h : GetPrev check expr t = some (Except.ok p)) :
    ∃ segs r, Segments expr = Except.ok segs ∧
      getPrevLoop check segs FUEL 100 t = some (Except.ok r) ∧ p = truncateMinute r := by
  unfold GetPrev at h
  match hseg : Segments expr with
  | Except.error e =>
    rw [hseg] at h
    exact absurd (Option.some.inj h) (by simp)
  | Except.ok segs =>
    rw [hseg] at h
    dsimp only at h
    match hl : getPrevLoop check segs FUEL 100 t with
    | none =>
      rw [hl] at h
      exact absurd h (by simp)
    | some (Except.error e) =>
      rw [hl] at h
      have := Option.some.inj h
      exact absurd this (by simp [Except.map])
    | some (Except.ok r) =>
      rw [hl] at h
      have h2 := Option.some.inj h
      have h3 : truncateMinute r = p := Except.ok.inj h2
      exact ⟨segs, r, rfl, hl, h3.symm⟩

/-- C1 (amended): whenever the previous-due search succeeds, `GetPrev(e, t) =
p` is a valid minute-aligned instant at or before `t`, `IsDue(e, p)` holds, and
no minute-aligned instant strictly between `p` and `t` satisfies `e`.  (The
original claim, quantifying over all instants between `p` and `t`, fails on
instants with a nonzero second component; see the counterexample.) -/
theorem getPrev_previous_due_correct {expr : String} {t p : DT} (ht : Valid t)
    (h : GetPrev CheckDue expr t = some (Except.ok p)) :
    Valid p ∧ minuteAligned p ∧ toNano p ≤ toNano t ∧
      IsDue CheckDue expr p = (true, none) ∧
      ∀ u : DT, Valid u → minuteAligned u → toNano p < toNano u → toNano u < toNano t →
        IsDue CheckDue expr u ≠ (true, none) := by
  obtain ⟨segs, r, hseg, hloop, hp⟩ := GetPrev_ok_elim h
  obtain ⟨hrv, hrle, hscan, hint⟩ := getPrevLoop_invariant segs FUEL 100 t r ht hloop
  obtain ⟨hnorm, hlen5, hlen6⟩ := Segments_ok hseg
  subst hp
  have hdec_r := toNano_decomp r
  have htr := toNano_truncate r
  have hrv' := hrv
  obtain ⟨-, -, -, -, -, -, hr7, hr8⟩ := hrv'
  refine ⟨truncateMinute_valid hrv, ⟨rfl, rfl⟩, by omega, ?_, ?_⟩
  · unfold IsDue
    rw [hseg]
    rw [SegmentsDue_true_iff]
    intro i hi hnw
    have hmem : i ∈ posOrder := mem_posOrder (by omega)
    have hall := scanPositions_none_all CheckDue segs r posOrder hscan i hmem hi hnw
    have hcongr : CheckDue (segs.getD i "") i (truncateMinute r) =
        CheckDue (segs.getD i "") i r :=
      CheckDue_eq_of_fields _ _ rfl rfl rfl rfl rfl
    rw [hcongr, hall]
  · intro u hu hal hlt1 hlt2
    obtain ⟨hus, hun⟩ := hal
    have hdec_u := toNano_decomp u
    rw [hus, hun] at hdec_u
    by_cases hur : toNano u ≤ toNano r
    · exfalso
      rw [htr] at hlt1
      omega
    · push_neg at hur
      have hni := hint u hu hur (le_of_lt hlt2)
      unfold IsDue
      rw [hseg]
      exact hni

/-- C1 witness: the amended theorem applied at `e = "30 * * * *"` and
`t` = 2024-01-01 10:31:00, whose previous due instant is 10:30:00. -/
theorem getPrev_previous_due_correct_witness :
    Valid (⟨2024, 1, 1, 10, 31, 0, 0⟩ : DT) ∧
      GetPrev CheckDue "30 * * * *" ⟨2024, 1, 1, 10, 31, 0, 0⟩ =
        some (Except.ok ⟨2024, 1, 1, 10, 30, 0, 0⟩) ∧
      (Valid (⟨2024, 1, 1, 10, 30, 0, 0⟩ : DT) ∧
        minuteAligned ⟨2024, 1, 1, 10, 30, 0, 0⟩ ∧
        toNano (⟨2024, 1, 1, 10, 30, 0, 0⟩ : DT) ≤ toNano (⟨2024, 1, 1, 10, 31, 0, 0⟩ : DT) ∧
        IsDue CheckDue "30 * * * *" ⟨2024, 1, 1, 10, 30, 0, 0⟩ = (true, none) ∧
        ∀ u : DT, Valid u → minuteAligned u →
          toNano (⟨2024, 1, 1, 10, 30, 0, 0⟩ : DT) < toNano u →
          toNano u < toNano (⟨2024, 1, 1, 10, 31, 0, 0⟩ : DT) →
          IsDue CheckDue "30 * * * *" u ≠ (true, none)) :=
  ⟨by decide, by decide, getPrev_previous_due_correct (by decide) (by decide)⟩

/-- C1 counterexample: for `e = "* * * * *"` and `t` = 2024-01-01 00:00:30,
`GetPrev` returns 00:00:00, yet the instant 00:00:15 lies strictly between the
result and `t` and satisfies `e` — refuting the claim that no instant strictly
between `GetPrev(e, t)` and `t` satisfies `e`. -/
theorem getPrev_between_instant_due :
    GetPrev CheckDue "* * * * *" ⟨2024, 1, 1, 0, 0, 30, 0⟩ =
        some (Except.ok ⟨2024, 1, 1, 0, 0, 0, 0⟩) ∧
      IsDue CheckDue "* * * * *" ⟨2024, 1, 1, 0, 0, 15, 0⟩ = (true, none) ∧
      Valid (⟨2024, 1, 1, 0, 0, 15, 0⟩ : DT) ∧
      toNano ⟨2024, 1, 1, 0, 0, 0, 0⟩ < toNano ⟨2024, 1, 1, 0, 0, 15, 0⟩ ∧
      toNano ⟨2024, 1, 1, 0, 0, 15, 0⟩ < toNano ⟨2024, 1, 1, 0, 0, 30, 0⟩ := by
  refine ⟨by decide, by decide, by decide, by decide, by decide⟩

/-- C2: the backward search of `GetPrev` terminates on every expression and
valid reference time — with the fuel `FUEL` the loop always yields an answer
(first conjunct), starting from the year budget 100 (second conjunct, the
definition of `GetPrev`); a scan reaching budget zero returns the not-found
error instead of looping (third conjunct); and one loop step decrements the
budget exactly when the regression changed the calendar year (last conjunct). -/
theorem getPrev_terminates (check : CheckFun) (expr : String) {t : DT} (ht : Valid t) :
    (GetPrev check expr t).isSome ∧
      (∀ segs : List String, Segments expr = Except.ok segs →
        GetPrev check expr t =
          (getPrevLoop check segs FUEL 100 t).map (fun r => r.map truncateMinute)) ∧
      (∀ segs : List String, ∀ fuel : Nat, ∀ t0 : DT,
        getPrevLoop check segs (fuel + 1) 0 t0 = some (Except.error Err.searchExhausted)) ∧
      (∀ segs : List String, ∀ fuel budget : Nat, ∀ t0 : DT, ∀ pos : Nat, budget ≠ 0 →
        scanPositions check segs t0 posOrder = Except.ok (some pos) → pos ≤ 5 →
        getPrevLoop check segs (fuel + 1) budget t0 =
          getPrevLoop check segs fuel
            (if (subNano (unitStart t0 pos)).year ≠ t0.year then budget - 1 else budget)
            (subNano (unitStart t0 pos))) := by
  refine ⟨?_, ?_, ?_, ?_⟩
  case refine_2 =>
    intro segs hseg
    unfold GetPrev
    rw [hseg]
  · unfold GetPrev
    match hseg : Segments expr with
    | Except.error e => rfl
    | Except.ok segs =>
      have hmoy := moy_lt t ht
      have hne : getPrevLoop check segs FUEL 100 t ≠ none := by
        apply getPrevLoop_total check segs FUEL 100 t ht
        unfold FUEL
        omega
      dsimp only
      match hl : getPrevLoop check segs FUEL 100 t with
      | none => exact absurd hl hne
      | some r => rfl
  · intro segs fuel t0
    unfold getPrevLoop
    rw [if_pos rfl]
  · intro segs fuel budget t0 pos hb hscan hp
    have hstep : getPrevLoop check segs (fuel + 1) budget t0 =
        (if budget = 0 then some (Except.error Err.searchExhausted)
         else match scanPositions check segs t0 posOrder with
           | Except.error e => some (Except.error e)
           | Except.ok none => some (Except.ok t0)
           | Except.ok (some pos2) =>
             match getPrevTime t0 pos2 with
             | none => some (Except.error Err.unknownPos)
             | some (prev, ych) =>
               getPrevLoop check segs fuel (if ych then budget - 1 else budget) prev) := rfl
    rw [if_neg hb, hscan] at hstep
    dsimp only at hstep
    rw [getPrevTime_eq hp t0] at hstep
    dsimp only at hstep
    rw [hstep]
    by_cases hy : (subNano (unitStart t0 pos)).year = t0.year
    · have hflag : ((subNano (unitStart t0 pos)).year != t0.year) = false := by simp [hy]
      rw [hflag]
      simp [hy]
    · have hflag : ((subNano (unitStart t0 pos)).year != t0.year) = true := by simp [hy]
      rw [hflag]
      simp [hy]

/-- C2 witness: the termination theorem applied to the modelled checker, the
unsatisfiable expression `"0 30 30 2 *"` (day 30 of February) and the instant
2024-03-15 10:00:00. -/
theorem getPrev_terminates_witness :
    Valid (⟨2024, 3, 15, 10, 0, 0, 0⟩ : DT) ∧
      (GetPrev CheckDue "0 30 30 2 *" ⟨2024, 3, 15, 10, 0, 0, 0⟩).isSome :=
  ⟨by decide, (getPrev_terminates CheckDue "0 30 30 2 *" (by decide)).1⟩

/-- C7: for a valid reference time and each of the six positions Year, Month,
DayOfMonth, DayOfWeek, Hour, Minute (constants 5, 3, 2, 4, 1, 0),
`getPrevTime` returns a valid instant exactly one nanosecond before the start
of the reference time's unit at that position, with a flag that is true iff
the returned instant's calendar year differs from the reference's. -/
theorem getPrevTime_spec {ref : DT} (href : Valid ref) {pos : Nat} (hp : pos ≤ 5) :
    ∃ prev : DT, ∃ flag : Bool, getPrevTime ref pos = some (prev, flag) ∧
      Valid prev ∧ toNano prev = toNano (unitStart ref pos) - 1 ∧
      (flag = true ↔ prev.year ≠ ref.year) := by
  refine ⟨subNano (unitStart ref pos), (subNano (unitStart ref pos)).year != ref.year,
    getPrevTime_eq hp ref, regress_valid href hp, regress_toNano href hp, ?_⟩
  simp [bne_iff_ne]

/-- C7 witness: `getPrevTime` at position Month (3) for 2024-03-15 10:20:30
yields 2024-02-29 23:59:59.999999999, one nanosecond before March 1. -/
theorem getPrevTime_spec_witness :
    Valid (⟨2024, 3, 15, 10, 20, 30, 0⟩ : DT) ∧ (3 : Nat) ≤ 5 ∧
      (∃ prev : DT, ∃ flag : Bool,
        getPrevTime ⟨2024, 3, 15, 10, 20, 30, 0⟩ 3 = some (prev, flag) ∧
        Valid prev ∧
        toNano prev = toNano (unitStart ⟨2024, 3, 15, 10, 20, 30, 0⟩ 3) - 1 ∧
        (flag = true ↔ prev.year ≠ (⟨2024, 3, 15, 10, 20, 30, 0⟩ : DT).year)) :=
  ⟨by decide, by decide, getPrevTime_spec (by decide) (by decide)⟩

theorem Segments_err_shape {expr : String} {e : Err} (h : Segments expr = Except.error e) :
    e = Err.wrongFieldCount := by
  simp only [Segments] at h
  by_cases hc : (normalize expr).length < 5 ∨ 6 < (normalize expr).length
  · rw [if_pos hc] at h
    exact (Except.error.inj h).symm
  · rw [if_neg hc] at h
    exact absurd h (by simp)

theorem scanPositions_error_src (check : CheckFun) (segs : List String) (t : DT) :
    ∀ l : List Nat, ∀ e : Err, scanPositions check segs t l = Except.error e →
      ∃ s : String, ∃ p : Nat, (check s p t).2 = some e := by
  intro l
  induction l with
  | nil =>
    intro e h
    exact absurd h (by simp [scanPositions])
  | cons p rest ih =>
    intro e h
    unfold scanPositions at h
    by_cases hl : p < segs.length
    · rw [if_pos hl] at h
      by_cases hw : segs.getD p "" = "*" ∨ segs.getD p "" = "?"
      · rw [if_pos hw] at h
        exact ih e h
      · rw [if_neg hw] at h
        rcases hc : check (segs.getD p "") p t with ⟨b, e2⟩
        rw [hc] at h
        match b, e2 with
        | true, some e0 =>
          have he : e0 = e := Except.error.inj (by exact h)
          exact ⟨segs.getD p "", p, by rw [hc, he]⟩
        | false, some e0 =>
          have he : e0 = e := Except.error.inj (by exact h)
          exact ⟨segs.getD p "", p, by rw [hc, he]⟩
        | true, none => exact ih e h
        | false, none => exact absurd h (by simp)
    · rw [if_neg hl] at h
      exact ih e h

theorem getPrevLoop_no_panic (check : CheckFun)
    (hch : ∀ s : String, ∀ p : Nat, ∀ t0 : DT, (check s p t0).2 ≠ some Err.unknownPos)
    (segs : List String) :
    ∀ fuel budget : Nat, ∀ t0 : DT,
      getPrevLoop check segs fuel budget t0 ≠ some (Except.error Err.unknownPos) := by
  intro fuel
  induction fuel with
  | zero =>
    intro budget t0
    simp [getPrevLoop]
  | succ fuel ih =>
    intro budget t0
    unfold getPrevLoop
    by_cases hb : budget = 0
    · rw [if_pos hb]
      intro h
      exact absurd (Except.error.inj (Option.some.inj h)) (by simp)
    · rw [if_neg hb]
      match hs : scanPositions check segs t0 posOrder with
      | Except.error e =>
        intro h
        obtain ⟨s, p, hsp⟩ := scanPositions_error_src check segs t0 posOrder e hs
        have he : e = Err.unknownPos := Except.error.inj (Option.some.inj h)
        rw [he] at hsp
        exact hch s p t0 hsp
      | Except.ok none =>
        intro h
        exact Except.noConfusion (Option.some.inj h)
      | Except.ok (some pos) =>
        have hp : pos ≤ 5 := posOrder_le (scanPositions_mem check segs t0 posOrder pos hs)
        dsimp only
        rw [getPrevTime_eq hp t0]
        dsimp only
        exact ih _ _

/-- C9: the defensive `panic` of `getPrevTime` (its unknown-position branch,
modelled as the `Err.unknownPos` outcome) is unreachable from the public
`GetPrev` operation: the scan hands `getPrevTime` only positions of the fixed
six-element list `posOrder`, on which it always succeeds, so for any checker
whose own errors are not the panic marker, `GetPrev` never reports it. -/
theorem getPrev_no_panic (check : CheckFun)
    (hch : ∀ s : String, ∀ p : Nat, ∀ t0 : DT, (check s p t0).2 ≠ some Err.unknownPos)
    (expr : String) (t : DT) :
    GetPrev check expr t ≠ some (Except.error Err.unknownPos) ∧
      ∀ pos : Nat, pos ∈ posOrder → (getPrevTime t pos).isSome := by
  constructor
  · unfold GetPrev
    match hseg : Segments expr with
    | Except.error e =>
      intro h
      have he : e = Err.unknownPos := Except.error.inj (Option.some.inj h)
      rw [he] at hseg
      have := Segments_err_shape hseg
      exact absurd this (by simp)
    | Except.ok segs =>
      intro h
      dsimp only at h
      match hl : getPrevLoop check segs FUEL 100 t with
      | none =>
        rw [hl] at h
        exact absurd h (by simp)
      | some (Except.ok r) =>
        rw [hl] at h
        exact Except.noConfusion (Option.some.inj h)
      | some (Except.error e) =>
        rw [hl] at h
        have he : e = Err.unknownPos := Except.error.inj (Option.some.inj h)
        rw [he] at hl
        exact getPrevLoop_no_panic check hch segs FUEL 100 t hl
  · intro pos hmem
    rw [getPrevTime_eq (posOrder_le hmem) t]
    rfl

/-- C9 witness: the theorem applied to the always-true checker (whose error
component is always `none`) on a concrete expression and instant. -/
theorem getPrev_no_panic_witness :
    GetPrev (fun _ _ _ => (true, none)) "* * * * 2L" ⟨2024, 3, 15, 10, 0, 0, 0⟩ ≠
        some (Except.error Err.unknownPos) ∧
      ∀ pos : Nat, pos ∈ posOrder →
        (getPrevTime (⟨2024, 3, 15, 10, 0, 0, 0⟩ : DT) pos).isSome :=
  getPrev_no_panic (fun _ _ _ => (true, none))
    (fun _ _ _ h => Option.noConfusion h) "* * * * 2L" ⟨2024, 3, 15, 10, 0, 0, 0⟩

theorem SegmentsDueAux_congr (check check2 : CheckFun) (t : DT)
    (hagree : ∀ s : String, ∀ p : Nat, s ≠ "*" → s ≠ "?" → check s p t = check2 s p t) :
    ∀ (segs : List String) (start : Nat),
      SegmentsDueAux check t start segs = SegmentsDueAux check2 t start segs := by
  intro segs
  induction segs with
  | nil => intro start; rfl
  | cons s rest ih =>
    intro start
    unfold SegmentsDueAux
    by_cases hw : s = "*" ∨ s = "?"
    · rw [if_pos hw, if_pos hw]
      exact ih (start + 1)
    · rw [if_neg hw, if_neg hw]
      push_neg at hw
      rw [hagree s start hw.1 hw.2]
      rcases check2 s start t with ⟨b, e⟩
      cases b
      · rfl
      · exact ih (start + 1)

theorem SegmentsDueAux_bail (check : CheckFun) (t : DT) :
    ∀ (segs : List String) (i start : Nat), i < segs.length →
      ¬(segs.getD i "" = "*" ∨ segs.getD i "" = "?") →
      (check (segs.getD i "") (start + i) t).1 = false →
      (∀ j, j < i → ¬(segs.getD j "" = "*" ∨ segs.getD j "" = "?") →
        (check (segs.getD j "") (start + j) t).1 = true) →
      SegmentsDueAux check t start segs =
        (false, (check (segs.getD i "") (start + i) t).2) := by
  intro segs
  induction segs with
  | nil =>
    intro i start hi
    exact absurd hi (by simp)
  | cons s rest ih =>
    intro i start hi hnw hfalse hpre
    unfold SegmentsDueAux
    match i with
    | 0 =>
      simp only [List.getD_cons_zero, Nat.add_zero] at hnw hfalse ⊢
      rw [if_neg hnw]
      rcases hc : check s start t with ⟨b, e⟩
      rw [hc] at hfalse
      have hb : b = false := hfalse
      subst hb
      rfl
    | j + 1 =>
      simp only [List.getD_cons_succ] at hnw hfalse ⊢
      have he : start + (j + 1) = start + 1 + j := by omega
      rw [he] at hfalse ⊢
      have hshift : ∀ k, k < j → ¬(rest.getD k "" = "*" ∨ rest.getD k "" = "?") →
          (check (rest.getD k "") (start + 1 + k) t).1 = true := by
        intro k hk hknw
        have hg := hpre (k + 1) (by omega) (by simpa using hknw)
        simp only [List.getD_cons_succ] at hg
        have he2 : start + (k + 1) = start + 1 + k := by omega
        rwa [he2] at hg
      by_cases hw : s = "*" ∨ s = "?"
      · rw [if_pos hw]
        exact ih j (start + 1) (by simpa using hi) hnw hfalse hshift
      · rw [if_neg hw]
        have h0 := hpre 0 (by omega) (by simpa using hw)
        simp only [List.getD_cons_zero, Nat.add_zero] at h0
        rcases hc : check s start t with ⟨b, e⟩
        rw [hc] at h0
        have hb : b = true := h0
        subst hb
        show SegmentsDueAux check t (start + 1) rest =
          (false, (check (rest.getD j "") (start + 1 + j) t).2)
        exact ih j (start + 1) (by simpa using hi) hnw hfalse hshift

/-- C3: the due evaluation of `SegmentsDue` skips `*`/`?` fields without
consulting the Matcher (first conjunct: the verdict is unchanged under any
checker agreeing on non-wildcard fields), invokes the Matcher with each
remaining field and its position, returns `(true, nil)` exactly when every
remaining field matches (second conjunct), and at the first non-matching
field (error-free non-match, all earlier non-wildcard fields matching)
returns `(false, nil)` without consulting any later field (third conjunct:
the verdict is unchanged under any checker agreeing up to that field). -/
theorem segmentsDue_eval_spec (check check2 : CheckFun) (t : DT) (segs : List String) :
    ((∀ s : String, ∀ p : Nat, s ≠ "*" → s ≠ "?" → check s p t = check2 s p t) →
        SegmentsDue check t segs = SegmentsDue check2 t segs) ∧
      (SegmentsDue check t segs = (true, none) ↔
        ∀ i, i < segs.length → ¬(segs.getD i "" = "*" ∨ segs.getD i "" = "?") →
          (check (segs.getD i "") i t).1 = true) ∧
      (∀ i, i < segs.length → ¬(segs.getD i "" = "*" ∨ segs.getD i "" = "?") →
        check (segs.getD i "") i t = (false, none) →
        (∀ j, j < i → ¬(segs.getD j "" = "*" ∨ segs.getD j "" = "?") →
          (check (segs.getD j "") j t).1 = true) →
        SegmentsDue check t segs = (false, none) ∧
          ∀ check3 : CheckFun,
            (∀ j, j ≤ i → check3 (segs.getD j "") j t = check (segs.getD j "") j t) →
            SegmentsDue check3 t segs = (false, none)) := by
  refine ⟨?_, SegmentsDue_true_iff check t segs, ?_⟩
  · intro hagree
    exact SegmentsDueAux_congr check check2 t hagree segs 0
  · intro i hi hnw hc hpre
    have hfst : (check (segs.getD i "") (0 + i) t).1 = false := by
      rw [Nat.zero_add, hc]
    have hsnd : (check (segs.getD i "") (0 + i) t).2 = none := by
      rw [Nat.zero_add, hc]
    constructor
    · unfold SegmentsDue
      rw [SegmentsDueAux_bail check t segs i 0 hi hnw hfst ?_, hsnd]
      intro j hj hjnw
      rw [Nat.zero_add]
      exact hpre j hj hjnw
    · intro check3 hag
      have hfst3 : (check3 (segs.getD i "") (0 + i) t).1 = false := by
        rw [Nat.zero_add, hag i (le_refl i), hc]
      have hsnd3 : (check3 (segs.getD i "") (0 + i) t).2 = none := by
        rw [Nat.zero_add, hag i (le_refl i), hc]
      unfold SegmentsDue
      rw [SegmentsDueAux_bail check3 t segs i 0 hi hnw hfst3 ?_, hsnd3]
      intro j hj hjnw
      rw [Nat.zero_add, hag j (le_of_lt hj)]
      exact hpre j hj hjnw

/-- C3 witness: the bail-early conjunct applied to a concrete checker that
rejects the minute field `"5"` of `["5", "*", "*", "*", "*"]`. -/
theorem segmentsDue_eval_spec_witness :
    SegmentsDue (fun s _ _ => (s == "7", none)) ⟨2024, 1, 1, 0, 0, 0, 0⟩
      ["5", "*", "*", "*", "*"] = (false, none) :=
  ((segmentsDue_eval_spec (fun s _ _ => (s == "7", none)) (fun s _ _ => (s == "7", none))
      ⟨2024, 1, 1, 0, 0, 0, 0⟩ ["5", "*", "*", "*", "*"]).2.2 0 (by decide) (by decide)
      (by decide) (fun j hj _ => absurd hj (Nat.not_lt_zero j))).1

/-- C4 counterexample: a Matcher returning `(true, error)` does not make
`SegmentsDue` return `(false, error)` — the error is silently discarded and
evaluation continues to the final `(true, nil)`, because the Go loop returns
the error value only together with a `false` due flag. -/
theorem segmentsDue_swallows_error :
    SegmentsDue (fun _ _ _ => (true, some Err.malformed)) ⟨2024, 1, 1, 0, 0, 0, 0⟩
        ["5", "*", "*", "*", "*"] = (true, none) ∧
      (fun (_ : String) (_ : Nat) (_ : DT) => ((true : Bool), some Err.malformed)) "5" 0
          ⟨2024, 1, 1, 0, 0, 0, 0⟩ = (true, some Err.malformed) :=
  ⟨by decide, rfl⟩

/-- C4 (amended): when a Matcher call made during due evaluation returns an
error together with a `false` due flag — for every possible error value — and
all earlier non-wildcard fields matched, `SegmentsDue` returns `(false, that
error)` and consults no later field; an error returned alongside a `true` due
flag is discarded (see the counterexample). -/
theorem segmentsDue_error_propagates (check : CheckFun) (t : DT) (segs : List String) :
    ∀ i, i < segs.length → ¬(segs.getD i "" = "*" ∨ segs.getD i "" = "?") →
      ∀ e : Err, check (segs.getD i "") i t = (false, some e) →
      (∀ j, j < i → ¬(segs.getD j "" = "*" ∨ segs.getD j "" = "?") →
        (check (segs.getD j "") j t).1 = true) →
      SegmentsDue check t segs = (false, some e) ∧
        ∀ check3 : CheckFun,
          (∀ j, j ≤ i → check3 (segs.getD j "") j t = check (segs.getD j "") j t) →
          SegmentsDue check3 t segs = (false, some e) := by
  intro i hi hnw e hc hpre
  have hfst : (check (segs.getD i "") (0 + i) t).1 = false := by
    rw [Nat.zero_add, hc]
  have hsnd : (check (segs.getD i "") (0 + i) t).2 = some e := by
    rw [Nat.zero_add, hc]
  constructor
  · unfold SegmentsDue
    rw [SegmentsDueAux_bail check t segs i 0 hi hnw hfst ?_, hsnd]
    intro j hj hjnw
    rw [Nat.zero_add]
    exact hpre j hj hjnw
  · intro check3 hag
    have hfst3 : (check3 (segs.getD i "") (0 + i) t).1 = false := by
      rw [Nat.zero_add, hag i (le_refl i), hc]
    have hsnd3 : (check3 (segs.getD i "") (0 + i) t).2 = some e := by
      rw [Nat.zero_add, hag i (le_refl i), hc]
    unfold SegmentsDue
    rw [SegmentsDueAux_bail check3 t segs i 0 hi hnw hfst3 ?_, hsnd3]
    intro j hj hjnw
    rw [Nat.zero_add, hag j (le_of_lt hj)]
    exact hpre j hj hjnw

/-- C4 witness: the amended theorem applied to a checker that reports
out-of-domain (with a false due flag) on the minute field. -/
theorem segmentsDue_error_propagates_witness :
    SegmentsDue (fun _ _ _ => (false, some Err.outOfDomain)) ⟨2024, 1, 1, 0, 0, 0, 0⟩
      ["61", "*", "*", "*", "*"] = (false, some Err.outOfDomain) :=
  ((segmentsDue_error_propagates (fun _ _ _ => (false, some Err.outOfDomain))
      ⟨2024, 1, 1, 0, 0, 0, 0⟩ ["61", "*", "*", "*", "*"] 0 (by decide) (by decide)
      Err.outOfDomain (by decide) (fun j hj _ => absurd hj (Nat.not_lt_zero j)))).1

/-- C5: `Segments` fails, and with the wrong-field-count error only, exactly
when the normalized expression has fewer than 5 or more than 6 fields,
otherwise returning the ordered field list (first two conjuncts); `IsDue` and
`GetPrev` call it first and propagate its error (last conjunct), for every
checker and reference time. -/
theorem segments_field_count (expr : String) :
    Segments expr = (if (normalize expr).length < 5 ∨ 6 < (normalize expr).length
        then Except.error Err.wrongFieldCount else Except.ok (normalize expr)) ∧
      ((∃ e : Err, Segments expr = Except.error e) ↔
        ((normalize expr).length < 5 ∨ 6 < (normalize expr).length)) ∧
      (∀ e : Err, Segments expr = Except.error e →
        e = Err.wrongFieldCount ∧
        ∀ check : CheckFun, ∀ t : DT,
          IsDue check expr t = (false, some e) ∧
          GetPrev check expr t = some (Except.error e)) := by
  refine ⟨rfl, ?_, ?_⟩
  · constructor
    · intro ⟨e, he⟩
      by_cases hc : (normalize expr).length < 5 ∨ 6 < (normalize expr).length
      · exact hc
      · simp only [Segments] at he
        rw [if_neg hc] at he
        exact absurd he (by simp)
    · intro hc
      refine ⟨Err.wrongFieldCount, ?_⟩
      simp only [Segments]
      rw [if_pos hc]
  · intro e he
    refine ⟨Segments_err_shape he, ?_⟩
    intro check t
    constructor
    · unfold IsDue
      rw [he]
    · unfold GetPrev
      rw [he]

/-- C5 witness: applied to the 3-field expression `"a b c"`, whose normalized
form has 3 fields, making `Segments`, `IsDue` and `GetPrev` all fail with the
wrong-field-count error. -/
theorem segments_field_count_witness :
    Segments "a b c" = Except.error Err.wrongFieldCount ∧
      Err.wrongFieldCount = Err.wrongFieldCount ∧
      IsDue CheckDue "a b c" ⟨2024, 1, 1, 0, 0, 0, 0⟩ =
        (false, some Err.wrongFieldCount) ∧
      GetPrev CheckDue "a b c" ⟨2024, 1, 1, 0, 0, 0, 0⟩ =
        some (Except.error Err.wrongFieldCount) := by
  have h := (segments_field_count "a b c").2.2 Err.wrongFieldCount (by decide)
  have h2 := h.2 CheckDue ⟨2024, 1, 1, 0, 0, 0, 0⟩
  exact ⟨by decide, h.1, h2.1, h2.2⟩

/-- C6: for every checker and reference time, `IsDue` on the alias
`"@hourly"` — in any letter case — gives exactly the result of `IsDue` on its
canonical expansion `"0 * * * *"`: normalization substitutes the canonical
form before any field parsing or matching. -/
theorem isDue_hourly_alias (check : CheckFun) (t : DT) :
    IsDue check "@hourly" t = IsDue check "0 * * * *" t ∧
      IsDue check "@HOURLY" t = IsDue check "0 * * * *" t ∧
      Segments "@hourly" = Except.ok ["0", "*", "*", "*", "*"] := by
  have h : Segments "@hourly" = Segments "0 * * * *" := by decide
  have h2 : Segments "@HOURLY" = Segments "0 * * * *" := by decide
  refine ⟨?_, ?_, by decide⟩
  · unfold IsDue
    rw [h]
  · unfold IsDue
    rw [h2]

/-- C10: month and weekday name substitution is position-blind — `"JAN"` in
the minute field is replaced by `"1"` before splitting, so `Segments` yields
`["1", "*", "*", "*", "*"]` and `IsDue` agrees with the numeric expression for
every checker and reference time. -/
theorem literals_position_blind (check : CheckFun) (t : DT) :
    Segments "JAN * * * *" = Except.ok ["1", "*", "*", "*", "*"] ∧
      IsDue check "JAN * * * *" t = IsDue check "1 * * * *" t := by
  refine ⟨by decide, ?_⟩
  have h : Segments "JAN * * * *" = Segments "1 * * * *" := by decide
  unfold IsDue
  rw [h]

theorem cut_dropWhile_append : ∀ pre : List Char, (∀ c ∈ pre, isCutChar c = true) →
    ∀ x : List Char, List.dropWhile isCutChar (pre ++ x) = List.dropWhile isCutChar x := by
  intro pre
  induction pre with
  | nil => intro _ x; rfl
  | cons c pre ih =>
    intro h x
    have hc := h c (by simp)
    simp only [List.cons_append, List.dropWhile_cons, hc, if_true]
    exact ih (fun d hd => h d (by simp [hd])) x

theorem dropWhile_append_ne (p : Char → Bool) : ∀ a b : List Char, List.dropWhile p a ≠ [] →
    List.dropWhile p (a ++ b) = List.dropWhile p a ++ b := by
  intro a
  induction a with
  | nil => intro b h; exact absurd rfl h
  | cons c a ih =>
    intro b h
    by_cases hc : p c = true
    · simp only [List.cons_append, List.dropWhile_cons, hc, if_true] at h ⊢
      exact ih b h
    · simp only [Bool.not_eq_true] at hc
      simp only [List.cons_append, List.dropWhile_cons, hc, Bool.false_eq_true, if_false]

theorem trimCut_pad (x pre suf : List Char) (hp : ∀ c ∈ pre, isCutChar c = true)
    (hs : ∀ c ∈ suf, isCutChar c = true) : trimCut (pre ++ x ++ suf) = trimCut x := by
  unfold trimCut
  rw [List.append_assoc, cut_dropWhile_append pre hp (x ++ suf)]
  by_cases hx : List.dropWhile isCutChar x = []
  · have hall : ∀ c ∈ x, isCutChar c = true := by
      rw [← List.dropWhile_eq_nil_iff]
      exact hx
    have hxs : ∀ c ∈ x ++ suf, isCutChar c = true := by
      intro c hc
      rcases List.mem_append.mp hc with h1 | h2
      · exact hall c h1
      · exact hs c h2
    have h1 : List.dropWhile isCutChar (x ++ suf) = [] := List.dropWhile_eq_nil_iff.mpr hxs
    rw [h1, hx]
  · rw [dropWhile_append_ne isCutChar x suf hx, List.reverse_append,
      cut_dropWhile_append suf.reverse (fun c hc => hs c (List.mem_reverse.mp hc))]

theorem normalize_pad (expr : String) (pre suf : List Char)
    (hp : ∀ c ∈ pre, isCutChar c = true) (hs : ∀ c ∈ suf, isCutChar c = true) :
    normalize (String.mk (pre ++ expr.data ++ suf)) = normalize expr := by
  unfold normalize
  rw [show (String.mk (pre ++ expr.data ++ suf)).data = pre ++ expr.data ++ suf from rfl,
    trimCut_pad expr.data pre suf hp hs]

/-- C8 counterexample: a trailing newline is whitespace but is not in the trim
cutset `" \t"`, so it survives trimming, is collapsed to a space, and yields a
sixth, empty field — `Segments` changes. -/
theorem segments_newline_changes :
    Segments (String.mk (("* * * * *").data ++ ['\n'])) ≠ Segments "* * * * *" ∧
      Segments (String.mk (("* * * * *").data ++ ['\n'])) =
        Except.ok ["*", "*", "*", "*", "*", ""] ∧
      Segments "* * * * *" = Except.ok ["*", "*", "*", "*", "*"] :=
  ⟨by decide, by decide, by decide⟩

/-- Fields interleaved with separator runs: the shape of a cron expression
text as a list of field texts joined by whitespace runs. -/
def joinSep : List (List Char) → List (List Char) → List Char
  | [], _ => []
  | [f], _ => f
  | f :: fs, [] => f ++ joinSep fs []
  | f :: fs, w :: ws2 => f ++ (w ++ joinSep fs ws2)

theorem cw_cons_nonws {c : Char} (hc : isWsChar c = false) (b : Bool) (cs : List Char) :
    collapseWsAux b (c :: cs) = c :: collapseWsAux false cs := by
  conv_lhs => unfold collapseWsAux
  rw [hc]
  simp

theorem cw_cons_ws_true {c : Char} (hc : isWsChar c = true) (cs : List Char) :
    collapseWsAux true (c :: cs) = collapseWsAux true cs := by
  conv_lhs => unfold collapseWsAux
  rw [hc]
  simp

theorem cw_cons_ws_false {c : Char} (hc : isWsChar c = true) (cs : List Char) :
    collapseWsAux false (c :: cs) = ' ' :: collapseWsAux true cs := by
  conv_lhs => unfold collapseWsAux
  rw [hc]
  simp

theorem cw_id : ∀ f : List Char, (∀ c ∈ f, isWsChar c = false) → ∀ b : Bool,
    collapseWsAux b f = f := by
  intro f
  induction f with
  | nil => intro _ b; rfl
  | cons c f ih =>
    intro h b
    rw [cw_cons_nonws (h c (by simp)) b f, ih (fun d hd => h d (by simp [hd])) false]

theorem cw_nonws_front : ∀ f : List Char, (∀ c ∈ f, isWsChar c = false) → f ≠ [] →
    ∀ (b : Bool) (rest : List Char),
      collapseWsAux b (f ++ rest) = f ++ collapseWsAux false rest := by
  intro f
  induction f with
  | nil => intro _ h; exact absurd rfl h
  | cons c f ih =>
    intro h _ b rest
    show collapseWsAux b (c :: (f ++ rest)) = c :: (f ++ collapseWsAux false rest)
    rw [cw_cons_nonws (h c (by simp)) b (f ++ rest)]
    by_cases hf : f = []
    · subst hf
      rfl
    · rw [ih (fun d hd => h d (by simp [hd])) hf false rest]

theorem cw_skip_run : ∀ w : List Char, (∀ c ∈ w, isWsChar c = true) → ∀ rest : List Char,
    collapseWsAux true (w ++ rest) = collapseWsAux true rest := by
  intro w
  induction w with
  | nil => intro _ rest; rfl
  | cons c w ih =>
    intro h rest
    show collapseWsAux true (c :: (w ++ rest)) = collapseWsAux true rest
    rw [cw_cons_ws_true (h c (by simp)) (w ++ rest)]
    exact ih (fun d hd => h d (by simp [hd])) rest

theorem cw_true_false (rest : List Char)
    (hr : rest = [] ∨ ∃ c rest2, rest = c :: rest2 ∧ isWsChar c = false) :
    collapseWsAux true rest = collapseWsAux false rest := by
  rcases hr with h | ⟨c, rest2, he, hc⟩
  · subst h; rfl
  · subst he
    rw [cw_cons_nonws hc true rest2, cw_cons_nonws hc false rest2]

theorem cw_run : ∀ w : List Char, (∀ c ∈ w, isWsChar c = true) → w ≠ [] →
    ∀ rest : List Char, (rest = [] ∨ ∃ c rest2, rest = c :: rest2 ∧ isWsChar c = false) →
    collapseWsAux false (w ++ rest) = ' ' :: collapseWsAux false rest := by
  intro w hw hne rest hr
  match w with
  | c :: w2 =>
    show collapseWsAux false (c :: (w2 ++ rest)) = ' ' :: collapseWsAux false rest
    rw [cw_cons_ws_false (hw c (by simp)) (w2 ++ rest),
      cw_skip_run w2 (fun d hd => hw d (by simp [hd])) rest, cw_true_false rest hr]

theorem joinSep_single (f : List Char) (wss : List (List Char)) : joinSep [f] wss = f := by
  cases wss <;> rfl

theorem joinSep_shape (fields wss : List (List Char)) (hne : fields ≠ [])
    (hf : ∀ f ∈ fields, f ≠ [] ∧ ∀ c ∈ f, isWsChar c = false) :
    ∃ c rest2, joinSep fields wss = c :: rest2 ∧ isWsChar c = false := by
  cases fields with
  | nil => exact absurd rfl hne
  | cons f fs =>
    obtain ⟨hfe, hfw⟩ := hf f (by simp)
    cases f with
    | nil => exact absurd rfl hfe
    | cons c f2 =>
      have hcw : isWsChar c = false := hfw c (by simp)
      cases fs with
      | nil => exact ⟨c, f2, joinSep_single (c :: f2) wss, hcw⟩
      | cons g gs =>
        cases wss with
        | nil => exact ⟨c, f2 ++ joinSep (g :: gs) [], rfl, hcw⟩
        | cons w ws2 => exact ⟨c, f2 ++ (w ++ joinSep (g :: gs) ws2), rfl, hcw⟩

theorem joinSep_rev_shape : ∀ (fields wss : List (List Char)), fields ≠ [] →
    (∀ f ∈ fields, f ≠ [] ∧ ∀ c ∈ f, isWsChar c = false) →
    ∃ c rest2, (joinSep fields wss).reverse = c :: rest2 ∧ isWsChar c = false := by
  intro fields
  induction fields with
  | nil => intro wss h; exact absurd rfl h
  | cons f fs ih =>
    intro wss _ hf
    obtain ⟨hfe, hfw⟩ := hf f (by simp)
    cases fs with
    | nil =>
      match hr : f.reverse with
      | [] => exact absurd (List.reverse_eq_nil_iff.mp hr) hfe
      | c :: r2 =>
        have hcm : c ∈ f := by
          rw [← List.mem_reverse, hr]
          simp
        refine ⟨c, r2, ?_, hfw c hcm⟩
        rw [joinSep_single f wss]
        exact hr
    | cons g gs =>
      have hfs : (g :: gs : List (List Char)) ≠ [] := by simp
      have hfsub : ∀ x ∈ g :: gs, x ≠ [] ∧ ∀ c ∈ x, isWsChar c = false := by
        intro x hx
        exact hf x (by simp [hx])
      cases wss with
      | nil =>
        obtain ⟨c, r2, hj, hcw⟩ := ih [] hfs hfsub
        refine ⟨c, r2 ++ f.reverse, ?_, hcw⟩
        show (f ++ joinSep (g :: gs) []).reverse = c :: (r2 ++ f.reverse)
        rw [List.reverse_append, hj]
        rfl
      | cons w ws2 =>
        obtain ⟨c, r2, hj, hcw⟩ := ih ws2 hfs hfsub
        refine ⟨c, r2 ++ w.reverse ++ f.reverse, ?_, hcw⟩
        show (f ++ (w ++ joinSep (g :: gs) ws2)).reverse = c :: (r2 ++ w.reverse ++ f.reverse)
        rw [List.reverse_append, List.reverse_append, hj]
        simp [List.append_assoc]

theorem dropWhile_id_of_head {p : Char → Bool} {z : List Char}
    (h : ∃ c r2, z = c :: r2 ∧ p c = false) : List.dropWhile p z = z := by
  obtain ⟨c, r2, hz, hc⟩ := h
  subst hz
  simp [List.dropWhile_cons, hc]

theorem trimCut_id (z : List Char)
    (h1 : ∃ c r2, z = c :: r2 ∧ isCutChar c = false)
    (h2 : ∃ c r2, z.reverse = c :: r2 ∧ isCutChar c = false) : trimCut z = z := by
  unfold trimCut
  rw [dropWhile_id_of_head h1, dropWhile_id_of_head h2, List.reverse_reverse]

theorem cut_of_ws {c : Char} (h : isWsChar c = false) : isCutChar c = false := by
  simp only [isWsChar, Bool.or_eq_false_iff, decide_eq_false_iff_not] at h
  simp only [isCutChar, Bool.or_eq_false_iff, decide_eq_false_iff_not]
  exact ⟨h.1.1.1.1, h.1.1.1.2⟩

theorem expressions_no_ws : ∀ p ∈ expressions, ∀ c ∈ p.1.data, isWsChar c = false := by
  decide

theorem toLower_ws {c : Char} (h : isWsChar c = true) : Char.toLower c = c := by
  simp only [isWsChar, Bool.or_eq_true, decide_eq_true_eq] at h
  rcases h with ((((h | h) | h) | h) | h) <;> rw [h] <;> decide

theorem isWs_toLower {c : Char} (h : isWsChar c = true) : isWsChar (Char.toLower c) = true := by
  rw [toLower_ws h]
  exact h

theorem lookupAlias_ws_none {cs : List Char} (h : ∃ c ∈ cs, isWsChar c = true) :
    lookupAlias cs = none := by
  obtain ⟨c, hc, hw⟩ := h
  unfold lookupAlias
  have hnone : expressions.find? (fun p => p.1.data == cs.map Char.toLower) = none := by
    rw [List.find?_eq_none]
    intro p hp hbeq
    have heq : p.1.data = cs.map Char.toLower := eq_of_beq hbeq
    have hcmem : Char.toLower c ∈ cs.map Char.toLower := List.mem_map_of_mem _ hc
    rw [← heq] at hcmem
    have hfalse := expressions_no_ws p hp _ hcmem
    have htrue := isWs_toLower hw
    rw [htrue] at hfalse
    exact Bool.noConfusion hfalse
  rw [hnone]
  rfl

theorem aliasStep_of_ws {cs : List Char} (h : ∃ c ∈ cs, isWsChar c = true) :
    aliasStep cs = cs := by
  unfold aliasStep
  rw [lookupAlias_ws_none h]

theorem collapse_join : ∀ fields : List (List Char), ∀ wss : List (List Char), fields ≠ [] →
    (∀ f ∈ fields, f ≠ [] ∧ ∀ c ∈ f, isWsChar c = false) →
    (∀ w ∈ wss, w ≠ [] ∧ ∀ c ∈ w, isWsChar c = true) →
    collapseWsAux false (joinSep fields wss) =
      joinSep fields (wss.map (fun _ => [' '])) := by
  intro fields
  induction fields with
  | nil => intro wss h; exact absurd rfl h
  | cons f fs ih =>
    intro wss _ hf hw
    obtain ⟨hfe, hfw⟩ := hf f (by simp)
    cases fs with
    | nil =>
      rw [joinSep_single f wss, joinSep_single f (wss.map (fun _ => [' ']))]
      exact cw_id f hfw false
    | cons g gs =>
      have hfsub : ∀ x ∈ g :: gs, x ≠ [] ∧ ∀ c ∈ x, isWsChar c = false := by
        intro x hx
        exact hf x (by simp [hx])
      cases wss with
      | nil =>
        show collapseWsAux false (f ++ joinSep (g :: gs) []) =
          f ++ joinSep (g :: gs) []
        rw [cw_nonws_front f hfw hfe false _]
        have hrec := ih [] (by simp) hfsub (by simp)
        simp only [List.map_nil] at hrec
        rw [hrec]
      | cons w ws2 =>
        obtain ⟨hwe, hww⟩ := hw w (by simp)
        show collapseWsAux false (f ++ (w ++ joinSep (g :: gs) ws2)) =
          f ++ ([' '] ++ joinSep (g :: gs) (ws2.map (fun _ => [' '])))
        rw [cw_nonws_front f hfw hfe false _]
        congr 1
        have hshape : joinSep (g :: gs) ws2 = [] ∨
            ∃ c rest2, joinSep (g :: gs) ws2 = c :: rest2 ∧ isWsChar c = false :=
          Or.inr (joinSep_shape (g :: gs) ws2 (by simp) hfsub)
        rw [cw_run w hww hwe _ hshape]
        have hrec := ih ws2 (by simp) hfsub (fun x hx => hw x (by simp [hx]))
        rw [hrec]
        rfl

theorem joinSep_mem_ws {g g2 : List Char} {gs : List (List Char)} {w : List Char}
    {ws2 : List (List Char)} : ∀ c ∈ w, c ∈ joinSep (g :: g2 :: gs) (w :: ws2) := by
  intro c hc
  show c ∈ g ++ (w ++ joinSep (g2 :: gs) ws2)
  simp [hc]

theorem normalize_sep_runs (fields wss : List (List Char))
    (hf : ∀ f ∈ fields, f ≠ [] ∧ ∀ c ∈ f, isWsChar c = false)
    (hw : ∀ w ∈ wss, w ≠ [] ∧ ∀ c ∈ w, isWsChar c = true)
    (hlen : wss.length + 1 = fields.length) :
    normalize (String.mk (joinSep fields wss)) =
      normalize (String.mk (joinSep fields (wss.map (fun _ => [' '])))) := by
  cases fields with
  | nil => simp at hlen
  | cons f fs =>
    cases fs with
    | nil =>
      have hw0 : wss = [] := by
        cases wss with
        | nil => rfl
        | cons a b => simp at hlen
      subst hw0
      rfl
    | cons g gs =>
      cases wss with
      | nil => simp at hlen
      | cons w ws2 =>
        obtain ⟨hwe, hww⟩ := hw w (by simp)
        have hfne : (f :: g :: gs : List (List Char)) ≠ [] := by simp
        have hw1 : ∀ x ∈ (w :: ws2).map (fun _ => ([' '] : List Char)),
            x ≠ [] ∧ ∀ c ∈ x, isWsChar c = true := by
          intro x hx
          rw [List.mem_map] at hx
          obtain ⟨-, -, hxe⟩ := hx
          rw [← hxe]
          refine ⟨by simp, ?_⟩
          intro c hc
          simp at hc
          rw [hc]
          decide
        obtain ⟨c1, r1, e1, w1⟩ := joinSep_shape (f :: g :: gs) (w :: ws2) hfne hf
        obtain ⟨c2, r2, e2, w2⟩ := joinSep_rev_shape (f :: g :: gs) (w :: ws2) hfne hf
        obtain ⟨c3, r3, e3, w3⟩ :=
          joinSep_shape (f :: g :: gs) ((w :: ws2).map (fun _ => [' '])) hfne hf
        obtain ⟨c4, r4, e4, w4⟩ :=
          joinSep_rev_shape (f :: g :: gs) ((w :: ws2).map (fun _ => [' '])) hfne hf
        have hmem1 : ∃ c ∈ joinSep (f :: g :: gs) (w :: ws2), isWsChar c = true := by
          cases w with
          | nil => exact absurd rfl hwe
          | cons wc w3 =>
            exact ⟨wc, joinSep_mem_ws wc (by simp), hww wc (by simp)⟩
        have hmem2 : ∃ c ∈ joinSep (f :: g :: gs) ((w :: ws2).map (fun _ => [' '])),
            isWsChar c = true := by
          refine ⟨' ', ?_, by decide⟩
          show ' ' ∈ joinSep (f :: g :: gs) ([' '] :: ws2.map (fun _ => [' ']))
          exact joinSep_mem_ws ' ' (by simp)
        unfold normalize
        rw [show (String.mk (joinSep (f :: g :: gs) (w :: ws2))).data =
          joinSep (f :: g :: gs) (w :: ws2) from rfl]
        rw [show (String.mk (joinSep (f :: g :: gs) ((w :: ws2).map (fun _ => [' '])))).data =
          joinSep (f :: g :: gs) ((w :: ws2).map (fun _ => [' '])) from rfl]
        rw [trimCut_id _ ⟨c1, r1, e1, cut_of_ws w1⟩ ⟨c2, r2, e2, cut_of_ws w2⟩,
          trimCut_id _ ⟨c3, r3, e3, cut_of_ws w3⟩ ⟨c4, r4, e4, cut_of_ws w4⟩,
          aliasStep_of_ws hmem1, aliasStep_of_ws hmem2]
        unfold collapseWs
        rw [collapse_join (f :: g :: gs) (w :: ws2) hfne hf hw,
          collapse_join (f :: g :: gs) ((w :: ws2).map (fun _ => [' '])) hfne hf hw1,
          List.map_map]
        rfl

/-- C8 (amended): normalization trims only spaces and tabs (not all
whitespace) from the ends, and collapses interior whitespace runs to single
spaces — so surrounding the expression with spaces or tabs does not change
`Segments` (first conjunct), and replacing the single-space separators
between whitespace-free fields by arbitrary nonempty whitespace runs does not
change `Segments` (second conjunct).  Other surrounding whitespace, such as a
newline, is collapsed instead of trimmed and can change the field list (see
the counterexample). -/
theorem segments_whitespace_amended :
    (∀ expr : String, ∀ pre suf : List Char, (∀ c ∈ pre, isCutChar c = true) →
      (∀ c ∈ suf, isCutChar c = true) →
      Segments (String.mk (pre ++ expr.data ++ suf)) = Segments expr) ∧
    (∀ fields wss : List (List Char),
      (∀ f ∈ fields, f ≠ [] ∧ ∀ c ∈ f, isWsChar c = false) →
      (∀ w ∈ wss, w ≠ [] ∧ ∀ c ∈ w, isWsChar c = true) →
      wss.length + 1 = fields.length →
      Segments (String.mk (joinSep fields wss)) =
        Segments (String.mk (joinSep fields (wss.map (fun _ => [' ']))))) := by
  constructor
  · intro expr pre suf hp hs
    unfold Segments
    rw [normalize_pad expr pre suf hp hs]
  · intro fields wss hf hw hlen
    unfold Segments
    rw [normalize_sep_runs fields wss hf hw hlen]

/-- C8 witness: both conjuncts applied to concrete inputs — padding
`"5 * * * *"` with a space and a tab, and joining the five fields of
`"5 * * * *"` with mixed whitespace runs. -/
theorem segments_whitespace_amended_witness :
    Segments (String.mk ([' '] ++ ("5 * * * *").data ++ ['\t'])) = Segments "5 * * * *" ∧
      Segments (String.mk (joinSep [['5'], ['*'], ['*'], ['*'], ['*']]
          [['\t'], [' '], [' ', ' '], [' ']])) =
        Segments (String.mk (joinSep [['5'], ['*'], ['*'], ['*'], ['*']]
          ([['\t'], [' '], [' ', ' '], [' ']].map (fun _ => [' '])))) :=
  ⟨segments_whitespace_amended.1 "5 * * * *" [' '] ['\t'] (by decide) (by decide),
   segments_whitespace_amended.2 [['5'], ['*'], ['*'], ['*'], ['*']]
     [['\t'], [' '], [' ', ' '], [' ']] (by decide) (by decide) (by decide)⟩

end Gronx
